import Mathlib

/-
Verification of the change-detection and storage-coordination engine of the
chatd-internships repository (src/chatd/storage_abstraction.py).

Job listings are Python dicts.  We model a listing as a stable id together
with an association list from the finitely many field names the code reads
to JSON values; dict access job.get(field) returns None (vNull here) when
the key is absent.  Python dict semantics (insertion order preserved, a
re-assignment keeps the original key position and replaces the value) are
modelled by insertKey / buildIndex below.
-/

namespace Chatd

/-- Field names of a job posting dict, as read by storage_abstraction.py:
the primary key_fields, the secondary all_fields, and nothing else. -/
inductive Field
  | active
  | is_visible
  | date_updated
  | url
  | company_name
  | title
  | sponsorship
  | source
  | date_posted
  | company_url
  | locations
  | terms
deriving DecidableEq, Repr

/-- JSON values stored in a job posting dict.  vNull plays the role of
Python None and also stands for an absent key under dict.get. -/
inductive Value
  | vNull
  | vBool (b : Bool)
  | vStr (s : String)
  | vInt (n : Int)
  | vList (l : List String)
deriving DecidableEq, Repr

/-- A job posting dict: the mandatory id entry plus the remaining fields.
Python dicts have unique keys; well-formedness of the field list is stated
as a hypothesis where a proof needs it. -/
structure Job where
  id : String
  fields : List (Field × Value)
deriving DecidableEq, Repr

/- Python dicts are modelled as association lists with first-match lookup;
assignment replaces the value at an existing key in place (keeping its
position) or appends the key at the end, exactly the observable behaviour
of an insertion-ordered Python dict. -/

/-- First-match lookup in an association list (Python dict access). -/
def lookupKey {κ α : Type} [DecidableEq κ] : List (κ × α) → κ → Option α
  | [], _ => none
  | (g, v) :: rest, k => if g = k then some v else lookupKey rest k

/-- Python dict assignment d[k] = v: replace in place or append. -/
def insertKey {κ α : Type} [DecidableEq κ] : List (κ × α) → κ → α → List (κ × α)
  | [], k, v => [(k, v)]
  | (g, w) :: rest, k, v =>
      if g = k then (k, v) :: rest else (g, w) :: insertKey rest k v

/-- Keys of an association list, in order. -/
def keysOf {κ α : Type} (d : List (κ × α)) : List κ :=
  d.map (fun p => p.1)

/-- A sequence of Python dict assignments d[k] = v, one per pair in
iteration order. -/
def insertAll {κ α : Type} [DecidableEq κ] (d ps : List (κ × α)) : List (κ × α) :=
  ps.foldl (fun d p => insertKey d p.1 p.2) d

/-- Python job.get(field): the stored value, or None when the key is absent. -/
def Job.get (j : Job) (f : Field) : Value :=
  match lookupKey j.fields f with
  | some v => v
  | none => Value.vNull

/-- Application of an updates dict to a field dict, one assignment per
entry in iteration order (the loop in update_job_posting). -/
def applyUpdates (fields updates : List (Field × Value)) : List (Field × Value) :=
  insertAll fields updates

/-- The dict comprehension in detect_job_changes, line 224:
current_by_id = the dict built by inserting (job.id, job) for each job in
iteration order.  A duplicate id keeps its first position and the last value. -/
def buildIndex (jobs : List Job) : List (String × Job) :=
  insertAll [] (jobs.map fun j => (j.id, j))

/-- First job of a list carrying the given id (the scan in
get_job_posting_by_id and update_job_posting). -/
def findJob : List Job → String → Option Job
  | [], _ => none
  | j :: rest, k => if j.id = k then some j else findJob rest k

/-- Last occurrence of an id in a job list. -/
def lastOcc (jobs : List Job) (k : String) : Option Job :=
  findJob jobs.reverse k

/- Reconciler (JsonStorageBackend.detect_job_changes, lines 221-283). -/

/-- The primary comparison fields, line 245. -/
def key_fields : List Field := [Field.active, Field.is_visible, Field.date_updated]

/-- The secondary comparison fields re-checked on a content correction,
lines 263-264. -/
def all_fields : List Field :=
  [Field.url, Field.company_name, Field.title, Field.sponsorship, Field.source,
   Field.date_posted, Field.company_url, Field.locations, Field.terms]

/-- Fields of fs whose values differ between the current and previous job,
each with its old (previous) and new (current) value, in fs order: the two
comparison loops of detect_job_changes. -/
def diff_fields (current_job previous_job : Job) (fs : List Field) :
    List (Field × Value × Value) :=
  fs.filterMap fun f =>
    if current_job.get f ≠ previous_job.get f then
      some (f, previous_job.get f, current_job.get f)
    else none

/-- The job_changes dict computed for one id present in both snapshots,
lines 249-272: primary-field diffs, extended by the secondary diffs when
date_updated changed (content correction). -/
def job_field_changes (current_job previous_job : Job) : List (Field × Value × Value) :=
  let primary := diff_fields current_job previous_job key_fields
  if Field.date_updated ∈ primary.map (fun c => c.1) then
    primary ++ diff_fields current_job previous_job all_fields
  else primary

/-- One element of the updated list: the current job paired with its
field-level diff map. -/
structure UpdatedJob where
  job : Job
  changes : List (Field × Value × Value)
deriving DecidableEq, Repr

/-- The change-detection result dict with keys added, updated, removed. -/
structure Changes where
  added : List Job
  updated : List UpdatedJob
  removed : List Job
deriving DecidableEq, Repr

/-- JsonStorageBackend.detect_job_changes (identical logic in the database
backend): classify every id of the two id-keyed indexes. -/
def detect_job_changes (current_jobs previous_jobs : List Job) : Changes :=
  let current_by_id := buildIndex current_jobs
  let previous_by_id := buildIndex previous_jobs
  { added := (current_by_id.filter fun p => (lookupKey previous_by_id p.1).isNone).map
      (fun p => p.2)
    removed := (previous_by_id.filter fun p => (lookupKey current_by_id p.1).isNone).map
      (fun p => p.2)
    updated := current_by_id.filterMap fun p =>
      match lookupKey previous_by_id p.1 with
      | none => none
      | some previous_job =>
          let cs := job_field_changes p.2 previous_job
          if cs = [] then none else some ⟨p.2, cs⟩ }

/- Update Applier (JsonStorageBackend.update_job_posting, lines 285-309, and
DataStorage.process_job_changes, lines 770-856, in json_only mode where the
file writes themselves succeed; the only update failure is a missing id). -/

/-- JsonStorageBackend.update_job_posting on the stored job list: patch the
first job carrying the id with the updates dict; none when the id is absent
(the method then returns False). -/
def update_job_posting (job_postings : List Job) (job_id : String)
    (updates : List (Field × Value)) : Option (List Job) :=
  match job_postings with
  | [] => none
  | j :: rest =>
      if j.id = job_id then
        some ({ j with fields := applyUpdates j.fields updates } :: rest)
      else
        match update_job_posting rest job_id updates with
        | some rest2 => some (j :: rest2)
        | none => none

/-- One entry of the update_failures list, line 808. -/
structure UpdateFailure where
  job_id : String
  reason : String
deriving DecidableEq, Repr

/-- One update_job_posting call issued by process_job_changes, recorded with
the updates dict it passed. -/
structure WriteOp where
  job_id : String
  updates : List (Field × Value)
deriving DecidableEq, Repr

/-- The updates dict passed for one updated entry: the entire current job
dict on a content correction (date_updated in the diff map; its id entry
rewrites the matched id with itself), otherwise only the changed
field-to-new-value pairs, lines 804-816. -/
def update_payload (u : UpdatedJob) : List (Field × Value) :=
  if Field.date_updated ∈ u.changes.map (fun c => c.1) then u.job.fields
  else u.changes.map (fun c => (c.1, c.2.2))

/-- The failure reason recorded when the write for one updated entry
returns False, lines 808 and 815. -/
def update_reason (u : UpdatedJob) : String :=
  if Field.date_updated ∈ u.changes.map (fun c => c.1) then "full_update_failed"
  else "selective_update_failed"

/-- Accumulated state of the per-entry update loop. -/
structure UpdatesResult where
  failures : List UpdateFailure
  success : Bool
  store : List Job
  trace : List WriteOp
deriving DecidableEq, Repr

/-- The update loop of process_job_changes, lines 797-821: one
update_job_posting call per updated entry; a False result is recorded as a
failure and clears success but does not stop the loop. -/
def process_updates : List UpdatedJob → List Job → UpdatesResult
  | [], store => ⟨[], true, store, []⟩
  | u :: rest, store =>
      match update_job_posting store u.job.id (update_payload u) with
      | some store2 =>
          let r := process_updates rest store2
          ⟨r.failures, r.success, r.store, ⟨u.job.id, update_payload u⟩ :: r.trace⟩
      | none =>
          let r := process_updates rest store
          ⟨⟨u.job.id, update_reason u⟩ :: r.failures, false, r.store,
            ⟨u.job.id, update_payload u⟩ :: r.trace⟩

/-- The results dict of process_job_changes, lines 788-794. -/
structure ProcessResults where
  added_count : Nat
  updated_count : Nat
  removed_count : Nat
  update_failures : List UpdateFailure
  success : Bool
deriving DecidableEq, Repr

/-- Result of one pipeline run: the results dict, the stored job list after
all writes, and the sequence of update_job_posting calls issued. -/
structure PipelineOut where
  results : ProcessResults
  store : List Job
  trace : List WriteOp
deriving DecidableEq, Repr

/-- DataStorage.process_job_changes, lines 770-856, in json_only mode with
succeeding file writes: detect changes against the stored snapshot, apply
updates one by one, then append the added jobs in one bulk save and filter
out the removed ids in one bulk save. -/
def process_job_changes (current_jobs stored_jobs : List Job) : PipelineOut :=
  let changes := detect_job_changes current_jobs stored_jobs
  let upd := process_updates changes.updated stored_jobs
  let afterAdd := if changes.added = [] then upd.store else upd.store ++ changes.added
  let removed_ids := changes.removed.map (fun j => j.id)
  let afterRemove :=
    if changes.removed = [] then afterAdd
    else afterAdd.filter fun j => decide (j.id ∉ removed_ids)
  ⟨⟨changes.added.length, changes.updated.length, changes.removed.length,
      upd.failures, upd.success⟩,
    afterRemove, upd.trace⟩

/- Message tracking (JsonStorageBackend lines 147-202, DatabaseStorageBackend
lines 409-438) and the Dual-Backend Coordinator (DataStorage, lines 550-768). -/

/-- One value of the message tracking dict, keyed by job id. -/
structure TrackingEntry where
  message_id : String
  channel_id : String
  posted_at : Nat
deriving DecidableEq, Repr

/-- State of the JSON file backend: the two serialized documents plus an
io_fail switch modelling a file-system exception during a write (the
methods then log and return False). -/
structure JsonBackendState where
  jobs : List Job
  tracking : List (String × TrackingEntry)
  io_fail : Bool
deriving DecidableEq, Repr

/-- State of the database backend: its tables, the test_connection probe
result, and an io_fail switch modelling a database exception during a
write. -/
structure DbBackendState where
  jobs : List Job
  tracking : List (String × TrackingEntry)
  conn_ok : Bool
  io_fail : Bool
deriving DecidableEq, Repr

/-- Which backend write method a DataStorage write operation invoked. -/
inductive BackendCall
  | json_save_jobs
  | db_save_jobs
  | json_save_tracking
  | db_save_tracking
  | json_add_tracking
  | db_add_tracking
  | json_update_job
  | db_update_job
deriving DecidableEq, Repr

/-- JsonStorageBackend.save_job_postings: full overwrite, False on an I/O
exception. -/
def jsonSaveJobs (s : JsonBackendState) (jobs : List Job) : Bool × JsonBackendState :=
  if s.io_fail then (false, s) else (true, { s with jobs := jobs })

/-- JsonStorageBackend.save_message_tracking: full overwrite, False on an
I/O exception. -/
def jsonSaveTracking (s : JsonBackendState) (tr : List (String × TrackingEntry)) :
    Bool × JsonBackendState :=
  if s.io_fail then (false, s) else (true, { s with tracking := tr })

/-- JsonStorageBackend.add_message_tracking, lines 190-202: set the entry at
the job id key (replacing any previous entry for that id) and save. -/
def jsonAddTracking (s : JsonBackendState) (job_id message_id channel_id : String)
    (now : Nat) : Bool × JsonBackendState :=
  if s.io_fail then (false, s)
  else (true, { s with tracking := insertKey s.tracking job_id ⟨message_id, channel_id, now⟩ })

/-- JsonStorageBackend.update_job_posting wrapped as a state transition:
False when the id is absent or the save raises. -/
def jsonUpdateJob (s : JsonBackendState) (job_id : String)
    (updates : List (Field × Value)) : Bool × JsonBackendState :=
  if s.io_fail then (false, s)
  else
    match update_job_posting s.jobs job_id updates with
    | some jobs2 => (true, { s with jobs := jobs2 })
    | none => (false, s)

/-- DatabaseStorageBackend.save_job_postings: delete all, insert all in one
transaction; False on a database exception. -/
def dbSaveJobs (s : DbBackendState) (jobs : List Job) : Bool × DbBackendState :=
  if s.io_fail then (false, s) else (true, { s with jobs := jobs })

/-- DatabaseStorageBackend.save_message_tracking: delete all, insert all. -/
def dbSaveTracking (s : DbBackendState) (tr : List (String × TrackingEntry)) :
    Bool × DbBackendState :=
  if s.io_fail then (false, s) else (true, { s with tracking := tr })

/-- DatabaseStorageBackend.add_message_tracking, lines 409-438: False when
the job id is absent (referential check); otherwise add or replace the one
tracking row keyed by the job id. -/
def dbAddTracking (s : DbBackendState) (job_id message_id channel_id : String)
    (now : Nat) : Bool × DbBackendState :=
  if s.io_fail then (false, s)
  else if (findJob s.jobs job_id).isSome then
    (true, { s with tracking := insertKey s.tracking job_id ⟨message_id, channel_id, now⟩ })
  else (false, s)

/-- DatabaseStorageBackend.update_job_posting: False when the id is absent;
otherwise patch the row (same field-map semantics as the JSON backend). -/
def dbUpdateJob (s : DbBackendState) (job_id : String)
    (updates : List (Field × Value)) : Bool × DbBackendState :=
  if s.io_fail then (false, s)
  else
    match update_job_posting s.jobs job_id updates with
    | some jobs2 => (true, { s with jobs := jobs2 })
    | none => (false, s)

/-- The three migration modes of DataStorage, lines 554-557. -/
inductive MigrationMode
  | json_only
  | dual_write
  | database_only
deriving DecidableEq, Repr

/-- The Dual-Backend Coordinator state: the mode fixed at construction and
the two backend states. -/
structure DataStorage where
  migration_mode : MigrationMode
  json_backend : JsonBackendState
  database_backend : DbBackendState
deriving DecidableEq, Repr

/-- DataStorage construction, lines 560-592: a dual_write or database_only
configuration whose connectivity probe fails (test_connection False, or an
exception while creating the manager) demotes itself to json_only instead
of raising; the demoted mode is fixed for the lifetime of the object. -/
def DataStorage.mk_init (mode : MigrationMode) (js : JsonBackendState)
    (db : DbBackendState) : DataStorage :=
  if (mode = MigrationMode.dual_write ∨ mode = MigrationMode.database_only) ∧
      db.conn_ok = false then
    ⟨MigrationMode.json_only, js, db⟩
  else ⟨mode, js, db⟩

/-- Outcome of one DataStorage write operation: the combined success flag,
the new state, and the backend write methods invoked, in call order. -/
structure WriteOutcome where
  ok : Bool
  state : DataStorage
  calls : List BackendCall
deriving DecidableEq, Repr

/-- DataStorage.save_job_postings, lines 602-622: the JSON write when the
mode is json_only or dual_write, then the database write when the mode is
dual_write or database_only; success only if every attempted write
succeeded, and a JSON failure does not short-circuit the database write. -/
def DataStorage.save_job_postings (ds : DataStorage) (jobs : List Job) : WriteOutcome :=
  let jsonPart :=
    if ds.migration_mode = MigrationMode.json_only ∨
        ds.migration_mode = MigrationMode.dual_write then
      let r := jsonSaveJobs ds.json_backend jobs
      (r.1, r.2, [BackendCall.json_save_jobs])
    else (true, ds.json_backend, ([] : List BackendCall))
  let dbPart :=
    if ds.migration_mode = MigrationMode.dual_write ∨
        ds.migration_mode = MigrationMode.database_only then
      let r := dbSaveJobs ds.database_backend jobs
      (r.1, r.2, [BackendCall.db_save_jobs])
    else (true, ds.database_backend, ([] : List BackendCall))
  ⟨jsonPart.1 && dbPart.1, ⟨ds.migration_mode, jsonPart.2.1, dbPart.2.1⟩,
    jsonPart.2.2 ++ dbPart.2.2⟩

/-- DataStorage.save_message_tracking, lines 632-652: same two-branch shape
as save_job_postings. -/
def DataStorage.save_message_tracking (ds : DataStorage)
    (tr : List (String × TrackingEntry)) : WriteOutcome :=
  let jsonPart :=
    if ds.migration_mode = MigrationMode.json_only ∨
        ds.migration_mode = MigrationMode.dual_write then
      let r := jsonSaveTracking ds.json_backend tr
      (r.1, r.2, [BackendCall.json_save_tracking])
    else (true, ds.json_backend, ([] : List BackendCall))
  let dbPart :=
    if ds.migration_mode = MigrationMode.dual_write ∨
        ds.migration_mode = MigrationMode.database_only then
      let r := dbSaveTracking ds.database_backend tr
      (r.1, r.2, [BackendCall.db_save_tracking])
    else (true, ds.database_backend, ([] : List BackendCall))
  ⟨jsonPart.1 && dbPart.1, ⟨ds.migration_mode, jsonPart.2.1, dbPart.2.1⟩,
    jsonPart.2.2 ++ dbPart.2.2⟩

/-- DataStorage.add_message_tracking, lines 662-682. -/
def DataStorage.add_message_tracking (ds : DataStorage)
    (job_id message_id channel_id : String) (now : Nat) : WriteOutcome :=
  let jsonPart :=
    if ds.migration_mode = MigrationMode.json_only ∨
        ds.migration_mode = MigrationMode.dual_write then
      let r := jsonAddTracking ds.json_backend job_id message_id channel_id now
      (r.1, r.2, [BackendCall.json_add_tracking])
    else (true, ds.json_backend, ([] : List BackendCall))
  let dbPart :=
    if ds.migration_mode = MigrationMode.dual_write ∨
        ds.migration_mode = MigrationMode.database_only then
      let r := dbAddTracking ds.database_backend job_id message_id channel_id now
      (r.1, r.2, [BackendCall.db_add_tracking])
    else (true, ds.database_backend, ([] : List BackendCall))
  ⟨jsonPart.1 && dbPart.1, ⟨ds.migration_mode, jsonPart.2.1, dbPart.2.1⟩,
    jsonPart.2.2 ++ dbPart.2.2⟩

/-- DataStorage.update_job_posting, lines 739-768. -/
def DataStorage.update_job_posting (ds : DataStorage) (job_id : String)
    (updates : List (Field × Value)) : WriteOutcome :=
  let jsonPart :=
    if ds.migration_mode = MigrationMode.json_only ∨
        ds.migration_mode = MigrationMode.dual_write then
      let r := jsonUpdateJob ds.json_backend job_id updates
      (r.1, r.2, [BackendCall.json_update_job])
    else (true, ds.json_backend, ([] : List BackendCall))
  let dbPart :=
    if ds.migration_mode = MigrationMode.dual_write ∨
        ds.migration_mode = MigrationMode.database_only then
      let r := dbUpdateJob ds.database_backend job_id updates
      (r.1, r.2, [BackendCall.db_update_job])
    else (true, ds.database_backend, ([] : List BackendCall))
  ⟨jsonPart.1 && dbPart.1, ⟨ds.migration_mode, jsonPart.2.1, dbPart.2.1⟩,
    jsonPart.2.2 ++ dbPart.2.2⟩

/-- DataStorage.get_job_postings, lines 594-600: database_only reads the
database, json_only and dual_write read the JSON file. -/
def DataStorage.get_job_postings (ds : DataStorage) : List Job :=
  if ds.migration_mode = MigrationMode.database_only then ds.database_backend.jobs
  else ds.json_backend.jobs

/-- DataStorage.get_message_tracking, lines 624-630. -/
def DataStorage.get_message_tracking (ds : DataStorage) :
    List (String × TrackingEntry) :=
  if ds.migration_mode = MigrationMode.database_only then ds.database_backend.tracking
  else ds.json_backend.tracking

/-- DataStorage.get_job_posting_by_id, lines 654-660. -/
def DataStorage.get_job_posting_by_id (ds : DataStorage) (job_id : String) : Option Job :=
  if ds.migration_mode = MigrationMode.database_only then
    findJob ds.database_backend.jobs job_id
  else findJob ds.json_backend.jobs job_id

/- Vocabulary used by the theorem statements. -/

/-- Ids of a job list, in order. -/
def idsOf (jobs : List Job) : List String :=
  jobs.map (fun j => j.id)

/-- The last assignment to a key in an updates dict, if any. -/
def lastVal {κ α : Type} [DecidableEq κ] (ps : List (κ × α)) (k : κ) : Option α :=
  lookupKey ps.reverse k

/-- A job patched by an updates dict (the in-place mutation of
update_job_posting on the matched job). -/
def patchJob (j : Job) (updates : List (Field × Value)) : Job :=
  { j with fields := applyUpdates j.fields updates }

/-- First updated entry carrying the given job id. -/
def findUpdated : List UpdatedJob → String → Option UpdatedJob
  | [], _ => none
  | u :: rest, k => if u.job.id = k then some u else findUpdated rest k

/-- Transcribes the claim wording: some primary field of key_fields differs
between the previous and current listing. -/
def primary_diff_exists (previous_job current_job : Job) : Prop :=
  ∃ f ∈ key_fields, current_job.get f ≠ previous_job.get f

/-- Transcribes the claim wording: date_updated differs, and under that
escalation some secondary field of all_fields differs. -/
def escalated_diff_exists (previous_job current_job : Job) : Prop :=
  current_job.get Field.date_updated ≠ previous_job.get Field.date_updated ∧
    ∃ f ∈ all_fields, current_job.get f ≠ previous_job.get f

/-- Transcribes the claim wording of C8: any two ids appearing in an output
list appear in the relative order of their listings in the source snapshot. -/
def pairwise_order_consistent (out : List String) (src : List Job) : Prop :=
  ∀ i : Fin out.length, ∀ j : Fin out.length, i.val < j.val →
    ∃ k : Fin src.length, ∃ l : Fin src.length, k.val < l.val ∧
      (src.get k).id = out.get i ∧ (src.get l).id = out.get j

/- Dictionary lemmas: lookupKey, insertKey, insertAll. -/

theorem lookupKey_insertKey {κ α : Type} [DecidableEq κ] (d : List (κ × α)) (k k2 : κ)
    (v : α) :
    lookupKey (insertKey d k v) k2 = if k = k2 then some v else lookupKey d k2 := by
  induction d with
  | nil => simp [insertKey, lookupKey]
  | cons p d ih =>
      obtain ⟨g, w⟩ := p
      by_cases hg : g = k
      · subst hg
        by_cases h2 : g = k2 <;> simp [insertKey, lookupKey, h2]
      · by_cases h2 : g = k2
        · subst h2
          have hk2 : ¬(k = g) := fun h => hg h.symm
          simp [insertKey, lookupKey, hg, hk2]
        · simp [insertKey, lookupKey, hg, h2, ih]

theorem lookupKey_append {κ α : Type} [DecidableEq κ] (l1 l2 : List (κ × α)) (k : κ) :
    lookupKey (l1 ++ l2) k =
      match lookupKey l1 k with
      | some v => some v
      | none => lookupKey l2 k := by
  induction l1 with
  | nil => simp [lookupKey]
  | cons p l1 ih =>
      obtain ⟨g, w⟩ := p
      by_cases hg : g = k <;> simp [lookupKey, hg, ih]

theorem lookupKey_isSome_iff {κ α : Type} [DecidableEq κ] (d : List (κ × α)) (k : κ) :
    (lookupKey d k).isSome ↔ k ∈ keysOf d := by
  induction d with
  | nil => simp [lookupKey, keysOf]
  | cons p d ih =>
      obtain ⟨g, w⟩ := p
      by_cases hg : g = k
      · subst hg; simp [lookupKey, keysOf]
      · have hk : ¬(k = g) := fun h => hg h.symm
        simp [lookupKey, keysOf, hg, hk, ih]

theorem lookupKey_eq_none_iff {κ α : Type} [DecidableEq κ] (d : List (κ × α)) (k : κ) :
    lookupKey d k = none ↔ k ∉ keysOf d := by
  rw [← lookupKey_isSome_iff]
  cases lookupKey d k <;> simp

theorem lookupKey_mem {κ α : Type} [DecidableEq κ] {d : List (κ × α)} {k : κ} {v : α}
    (h : lookupKey d k = some v) : (k, v) ∈ d := by
  induction d with
  | nil => simp [lookupKey] at h
  | cons p d ih =>
      obtain ⟨g, w⟩ := p
      by_cases hg : g = k
      · subst hg
        simp [lookupKey] at h
        simp [h]
      · simp [lookupKey, hg] at h
        exact List.mem_cons_of_mem _ (ih h)

theorem mem_lookupKey_nodup {κ α : Type} [DecidableEq κ] {d : List (κ × α)} {k : κ}
    {v : α} (hd : (keysOf d).Nodup) (h : (k, v) ∈ d) : lookupKey d k = some v := by
  induction d with
  | nil => simp at h
  | cons p d ih =>
      obtain ⟨g, w⟩ := p
      have hd2 : g ∉ keysOf d ∧ (keysOf d).Nodup := by
        rw [keysOf, List.map_cons, List.nodup_cons] at hd
        exact hd
      rcases List.mem_cons.mp h with h1 | h1
      · injection h1 with hk hv
        subst hk
        subst hv
        simp [lookupKey]
      · have hkd : k ∈ keysOf d := List.mem_map_of_mem (fun p => p.1) h1
        have hg : ¬(g = k) := by
          intro hgk
          subst hgk
          exact hd2.1 hkd
        simp [lookupKey, hg]
        exact ih hd2.2 h1

theorem mem_insertKey {κ α : Type} [DecidableEq κ] {d : List (κ × α)} {k : κ} {v : α}
    {p : κ × α} (hp : p ∈ insertKey d k v) : p = (k, v) ∨ p ∈ d := by
  induction d with
  | nil => simpa [insertKey] using hp
  | cons q d ih =>
      obtain ⟨g, w⟩ := q
      by_cases hg : g = k
      · subst hg
        simp only [insertKey, if_pos rfl] at hp
        rcases List.mem_cons.mp hp with h | h
        · exact Or.inl h
        · exact Or.inr (List.mem_cons_of_mem _ h)
      · simp only [insertKey, if_neg hg] at hp
        rcases List.mem_cons.mp hp with h | h
        · exact Or.inr (h ▸ List.mem_cons_self _ _)
        · rcases ih h with h2 | h2
          · exact Or.inl h2
          · exact Or.inr (List.mem_cons_of_mem _ h2)

theorem keysOf_insertKey {κ α : Type} [DecidableEq κ] (d : List (κ × α)) (k : κ) (v : α) :
    keysOf (insertKey d k v) = if k ∈ keysOf d then keysOf d else keysOf d ++ [k] := by
  induction d with
  | nil => simp [insertKey, keysOf]
  | cons q d ih =>
      obtain ⟨g, w⟩ := q
      by_cases hg : g = k
      · subst hg
        simp [insertKey, keysOf]
      · have hk : ¬(k = g) := fun h => hg h.symm
        have hstep : insertKey ((g, w) :: d) k v = (g, w) :: insertKey d k v := by
          simp [insertKey, hg]
        rw [hstep, show keysOf ((g, w) :: insertKey d k v) = g :: keysOf (insertKey d k v)
          from rfl, show keysOf ((g, w) :: d) = g :: keysOf d from rfl, ih]
        by_cases hm : k ∈ keysOf d
        · rw [if_pos hm, if_pos (List.mem_cons_of_mem _ hm)]
        · rw [if_neg hm, if_neg (by simp [List.mem_cons, hk, hm])]
          rfl

theorem keysOf_insertKey_nodup {κ α : Type} [DecidableEq κ] {d : List (κ × α)}
    (hd : (keysOf d).Nodup) (k : κ) (v : α) : (keysOf (insertKey d k v)).Nodup := by
  rw [keysOf_insertKey]
  by_cases hm : k ∈ keysOf d
  · simpa [hm] using hd
  · simp [hm, List.nodup_append, hd, List.disjoint_singleton]

theorem insertAll_cons {κ α : Type} [DecidableEq κ] (d : List (κ × α)) (q : κ × α)
    (ps : List (κ × α)) : insertAll d (q :: ps) = insertAll (insertKey d q.1 q.2) ps := rfl

theorem lookupKey_insertAll {κ α : Type} [DecidableEq κ] (ps d : List (κ × α)) (k : κ) :
    lookupKey (insertAll d ps) k =
      match lastVal ps k with
      | some v => some v
      | none => lookupKey d k := by
  induction ps generalizing d with
  | nil => simp [insertAll, lastVal, lookupKey]
  | cons p ps ih =>
      obtain ⟨f, v⟩ := p
      rw [insertAll_cons, ih]
      have h2 : lastVal ((f, v) :: ps) k =
          match lastVal ps k with
          | some w => some w
          | none => lookupKey [(f, v)] k := by
        unfold lastVal
        rw [List.reverse_cons, lookupKey_append]
      rw [h2]
      cases h : lastVal ps k with
      | some w => rfl
      | none => by_cases hf : f = k <;> simp [lookupKey, lookupKey_insertKey, hf]

theorem mem_insertAll {κ α : Type} [DecidableEq κ] {ps d : List (κ × α)} {p : κ × α}
    (hp : p ∈ insertAll d ps) : p ∈ d ∨ p ∈ ps := by
  induction ps generalizing d with
  | nil => exact Or.inl hp
  | cons q ps ih =>
      rw [insertAll_cons] at hp
      rcases ih hp with h | h
      · rcases mem_insertKey h with h2 | h2
        · exact Or.inr (by simp [h2])
        · exact Or.inl h2
      · exact Or.inr (List.mem_cons_of_mem _ h)

theorem keysOf_insertAll_nodup {κ α : Type} [DecidableEq κ] {d : List (κ × α)}
    (ps : List (κ × α)) (hd : (keysOf d).Nodup) : (keysOf (insertAll d ps)).Nodup := by
  induction ps generalizing d with
  | nil => exact hd
  | cons q ps ih => exact ih (keysOf_insertKey_nodup hd q.1 q.2)

theorem keysOf_insertAll_sublist {κ α : Type} [DecidableEq κ] (ps d : List (κ × α)) :
    ∃ e, keysOf (insertAll d ps) = keysOf d ++ e ∧ List.Sublist e (keysOf ps) := by
  induction ps generalizing d with
  | nil => exact ⟨[], by simp [insertAll], List.nil_sublist _⟩
  | cons q ps ih =>
      obtain ⟨e, he, hs⟩ := ih (insertKey d q.1 q.2)
      rw [keysOf_insertKey] at he
      by_cases hm : q.1 ∈ keysOf d
      · rw [if_pos hm] at he
        refine ⟨e, by rw [insertAll_cons]; exact he, ?_⟩
        exact hs.trans (List.sublist_cons_self _ _)
      · rw [if_neg hm] at he
        refine ⟨q.1 :: e, ?_, ?_⟩
        · rw [insertAll_cons, he, List.append_assoc]
          rfl
        · exact List.cons_sublist_cons.mpr hs

theorem lookupKey_reverse_nodup {κ α : Type} [DecidableEq κ] {d : List (κ × α)}
    (hd : (keysOf d).Nodup) (k : κ) : lookupKey d.reverse k = lookupKey d k := by
  cases h : lookupKey d k with
  | some v =>
      have hrev : (keysOf d.reverse).Nodup := by
        have : keysOf d.reverse = (keysOf d).reverse := by simp [keysOf]
        rw [this, List.nodup_reverse]
        exact hd
      exact mem_lookupKey_nodup hrev (List.mem_reverse.mpr (lookupKey_mem h))
  | none =>
      rw [lookupKey_eq_none_iff] at h ⊢
      intro hk
      apply h
      have : keysOf d.reverse = (keysOf d).reverse := by simp [keysOf]
      rw [this, List.mem_reverse] at hk
      exact hk

theorem lastVal_nodup {κ α : Type} [DecidableEq κ] {ps : List (κ × α)}
    (hps : (keysOf ps).Nodup) (k : κ) : lastVal ps k = lookupKey ps k :=
  lookupKey_reverse_nodup hps k

/- findJob and buildIndex lemmas. -/

theorem idsOf_cons (a : Job) (jobs : List Job) : idsOf (a :: jobs) = a.id :: idsOf jobs :=
  rfl

theorem idsOf_append (l1 l2 : List Job) : idsOf (l1 ++ l2) = idsOf l1 ++ idsOf l2 := by
  simp [idsOf]

theorem idsOf_reverse (jobs : List Job) : idsOf jobs.reverse = (idsOf jobs).reverse := by
  simp [idsOf]

theorem findJob_eq_some {jobs : List Job} {k : String} {j : Job}
    (h : findJob jobs k = some j) : j ∈ jobs ∧ j.id = k := by
  induction jobs with
  | nil => simp [findJob] at h
  | cons a jobs ih =>
      by_cases ha : a.id = k
      · simp [findJob, ha] at h
        subst h
        exact ⟨List.mem_cons_self _ _, ha⟩
      · simp [findJob, ha] at h
        obtain ⟨h1, h2⟩ := ih h
        exact ⟨List.mem_cons_of_mem _ h1, h2⟩

theorem findJob_isSome_iff (jobs : List Job) (k : String) :
    (findJob jobs k).isSome ↔ k ∈ idsOf jobs := by
  induction jobs with
  | nil => simp [findJob, idsOf]
  | cons a jobs ih =>
      rw [idsOf_cons]
      by_cases ha : a.id = k
      · simp [findJob, ha]
      · have hk : ¬(k = a.id) := fun h => ha h.symm
        simp [findJob, ha, hk, ih]

theorem findJob_eq_none_iff (jobs : List Job) (k : String) :
    findJob jobs k = none ↔ k ∉ idsOf jobs := by
  rw [← findJob_isSome_iff]
  cases findJob jobs k <;> simp

theorem findJob_mem_nodup {jobs : List Job} (hn : (idsOf jobs).Nodup) {j : Job}
    (hj : j ∈ jobs) {k : String} (hk : j.id = k) : findJob jobs k = some j := by
  induction jobs with
  | nil => simp at hj
  | cons a jobs ih =>
      have hn2 : a.id ∉ idsOf jobs ∧ (idsOf jobs).Nodup := by
        rw [idsOf_cons, List.nodup_cons] at hn
        exact hn
      rcases List.mem_cons.mp hj with h | h
      · subst h
        simp [findJob, hk]
      · have ha : ¬(a.id = k) := by
          intro hak
          apply hn2.1
          rw [hak, ← hk]
          exact List.mem_map_of_mem (fun x => x.id) h
        simp [findJob, ha]
        exact ih hn2.2 h

theorem findJob_reverse_nodup {jobs : List Job} (hn : (idsOf jobs).Nodup) (k : String) :
    findJob jobs.reverse k = findJob jobs k := by
  have hrev : (idsOf jobs.reverse).Nodup := by
    rw [idsOf_reverse, List.nodup_reverse]
    exact hn
  cases h : findJob jobs k with
  | some j =>
      obtain ⟨hj, hk⟩ := findJob_eq_some h
      exact findJob_mem_nodup hrev (List.mem_reverse.mpr hj) hk
  | none =>
      rw [findJob_eq_none_iff] at h ⊢
      intro hk
      apply h
      rw [idsOf_reverse, List.mem_reverse] at hk
      exact hk

theorem lookupKey_map_pair (jobs : List Job) (k : String) :
    lookupKey (jobs.map fun j => (j.id, j)) k = findJob jobs k := by
  induction jobs with
  | nil => rfl
  | cons j jobs ih => by_cases h : j.id = k <;> simp [lookupKey, findJob, h, ih]

theorem lookupKey_buildIndex (jobs : List Job) (k : String) :
    lookupKey (buildIndex jobs) k = lastOcc jobs k := by
  unfold buildIndex
  rw [lookupKey_insertAll]
  have h : lastVal (jobs.map fun j => (j.id, j)) k = lastOcc jobs k := by
    unfold lastVal lastOcc
    rw [← List.map_reverse]
    exact lookupKey_map_pair jobs.reverse k
  rw [h]
  cases lastOcc jobs k <;> rfl

theorem lookupKey_buildIndex_nodup {jobs : List Job} (hn : (idsOf jobs).Nodup)
    (k : String) : lookupKey (buildIndex jobs) k = findJob jobs k := by
  rw [lookupKey_buildIndex]
  exact findJob_reverse_nodup hn k

theorem mem_buildIndex {jobs : List Job} {p : String × Job} (hp : p ∈ buildIndex jobs) :
    p.2 ∈ jobs ∧ p.2.id = p.1 := by
  unfold buildIndex at hp
  rcases mem_insertAll hp with h | h
  · simp at h
  · rw [List.mem_map] at h
    obtain ⟨j, hj, hpj⟩ := h
    subst hpj
    exact ⟨hj, rfl⟩

theorem keysOf_buildIndex_nodup (jobs : List Job) : (keysOf (buildIndex jobs)).Nodup := by
  unfold buildIndex
  exact keysOf_insertAll_nodup _ (by simp [keysOf])

theorem keysOf_map_pair (jobs : List Job) :
    keysOf (jobs.map fun j => (j.id, j)) = idsOf jobs := by
  simp [keysOf, idsOf, List.map_map]

theorem keysOf_buildIndex_sublist (jobs : List Job) :
    List.Sublist (keysOf (buildIndex jobs)) (idsOf jobs) := by
  obtain ⟨e, he, hs⟩ := keysOf_insertAll_sublist (jobs.map fun j => (j.id, j)) []
  unfold buildIndex
  rw [he, keysOf_map_pair jobs] at *
  simpa [keysOf] using hs

theorem mem_keysOf_buildIndex (jobs : List Job) (k : String) :
    k ∈ keysOf (buildIndex jobs) ↔ k ∈ idsOf jobs := by
  constructor
  · exact fun h => (keysOf_buildIndex_sublist jobs).subset h
  · intro h
    rw [← lookupKey_isSome_iff, lookupKey_buildIndex]
    unfold lastOcc
    rw [findJob_isSome_iff, idsOf_reverse, List.mem_reverse]
    exact h

/- Reconciler lemmas. -/

theorem mem_diff_fields {cj pj : Job} {fs : List Field} {f : Field} {o n : Value} :
    (f, o, n) ∈ diff_fields cj pj fs ↔
      f ∈ fs ∧ cj.get f ≠ pj.get f ∧ o = pj.get f ∧ n = cj.get f := by
  unfold diff_fields
  rw [List.mem_filterMap]
  constructor
  · rintro ⟨g, hg, hc⟩
    by_cases h : cj.get g ≠ pj.get g
    · rw [if_pos h] at hc
      simp only [Option.some.injEq, Prod.mk.injEq] at hc
      obtain ⟨h1, h2, h3⟩ := hc
      subst h1
      exact ⟨hg, h, h2.symm, h3.symm⟩
    · rw [if_neg h] at hc
      exact absurd hc (by simp)
  · rintro ⟨h1, h2, h3, h4⟩
    subst h3
    subst h4
    exact ⟨f, h1, by rw [if_pos h2]⟩

theorem mem_diff_fields_keys {cj pj : Job} {fs : List Field} {f : Field} :
    f ∈ (diff_fields cj pj fs).map (fun c => c.1) ↔ f ∈ fs ∧ cj.get f ≠ pj.get f := by
  rw [List.mem_map]
  constructor
  · rintro ⟨c, hc, hcf⟩
    obtain ⟨g, o, n⟩ := c
    obtain ⟨h1, h2, h3, h4⟩ := mem_diff_fields.mp hc
    subst hcf
    exact ⟨h1, h2⟩
  · rintro ⟨h1, h2⟩
    exact ⟨(f, pj.get f, cj.get f), mem_diff_fields.mpr ⟨h1, h2, rfl, rfl⟩, rfl⟩

theorem diff_fields_eq_nil_iff {cj pj : Job} {fs : List Field} :
    diff_fields cj pj fs = [] ↔ ∀ f ∈ fs, cj.get f = pj.get f := by
  unfold diff_fields
  rw [List.filterMap_eq_nil_iff]
  constructor
  · intro h f hf
    by_contra hne
    have := h f hf
    rw [if_pos hne] at this
    exact absurd this (by simp)
  · intro h f hf
    rw [if_neg (by simpa using h f hf)]

theorem date_updated_mem_changes_iff {cj pj : Job} :
    Field.date_updated ∈ (job_field_changes cj pj).map (fun c => c.1) ↔
      cj.get Field.date_updated ≠ pj.get Field.date_updated := by
  unfold job_field_changes
  by_cases hdu : Field.date_updated ∈ (diff_fields cj pj key_fields).map (fun c => c.1)
  · rw [if_pos hdu]
    have hd := (mem_diff_fields_keys.mp hdu).2
    refine iff_of_true ?_ hd
    rw [List.map_append]
    exact List.mem_append_left _ hdu
  · rw [if_neg hdu]
    have hne : ¬(cj.get Field.date_updated ≠ pj.get Field.date_updated) := by
      intro hne
      exact hdu (mem_diff_fields_keys.mpr ⟨by decide, hne⟩)
    exact iff_of_false hdu hne

theorem job_field_changes_eq_nil_iff {cj pj : Job} :
    job_field_changes cj pj = [] ↔ ∀ f ∈ key_fields, cj.get f = pj.get f := by
  unfold job_field_changes
  by_cases hdu : Field.date_updated ∈ (diff_fields cj pj key_fields).map (fun c => c.1)
  · rw [if_pos hdu]
    have hd := (mem_diff_fields_keys.mp hdu).2
    constructor
    · intro h
      have h1 := (List.append_eq_nil.mp h).1
      rw [h1] at hdu
      exact absurd hdu (by simp)
    · intro h
      exact absurd (h _ (by decide)) hd
  · rw [if_neg hdu]
    exact diff_fields_eq_nil_iff

theorem added_def (cur prev : List Job) :
    (detect_job_changes cur prev).added =
      ((buildIndex cur).filter fun p => (lookupKey (buildIndex prev) p.1).isNone).map
        (fun p => p.2) := rfl

theorem removed_def (cur prev : List Job) :
    (detect_job_changes cur prev).removed =
      ((buildIndex prev).filter fun p => (lookupKey (buildIndex cur) p.1).isNone).map
        (fun p => p.2) := rfl

theorem updated_def (cur prev : List Job) :
    (detect_job_changes cur prev).updated =
      (buildIndex cur).filterMap (fun p =>
        match lookupKey (buildIndex prev) p.1 with
        | none => none
        | some previous_job =>
            if job_field_changes p.2 previous_job = [] then none
            else some ⟨p.2, job_field_changes p.2 previous_job⟩) := rfl

theorem mem_added_iff {cur prev : List Job} {j : Job} :
    j ∈ (detect_job_changes cur prev).added ↔
      lookupKey (buildIndex cur) j.id = some j ∧
        lookupKey (buildIndex prev) j.id = none := by
  rw [added_def, List.mem_map]
  constructor
  · rintro ⟨p, hp, hpj⟩
    rw [List.mem_filter] at hp
    obtain ⟨hmem, hpred⟩ := hp
    obtain ⟨hjmem, hid⟩ := mem_buildIndex hmem
    subst hpj
    have hp12 : (p.1, p.2) ∈ buildIndex cur := by simpa using hmem
    constructor
    · rw [hid]
      exact mem_lookupKey_nodup (keysOf_buildIndex_nodup cur) hp12
    · rw [hid]
      exact Option.isNone_iff_eq_none.mp hpred
  · rintro ⟨hc, hp⟩
    refine ⟨(j.id, j), ?_, rfl⟩
    rw [List.mem_filter]
    exact ⟨lookupKey_mem hc, by simp [hp]⟩

theorem mem_removed_iff {cur prev : List Job} {j : Job} :
    j ∈ (detect_job_changes cur prev).removed ↔
      lookupKey (buildIndex prev) j.id = some j ∧
        lookupKey (buildIndex cur) j.id = none := by
  rw [removed_def, List.mem_map]
  constructor
  · rintro ⟨p, hp, hpj⟩
    rw [List.mem_filter] at hp
    obtain ⟨hmem, hpred⟩ := hp
    obtain ⟨hjmem, hid⟩ := mem_buildIndex hmem
    subst hpj
    have hp12 : (p.1, p.2) ∈ buildIndex prev := by simpa using hmem
    constructor
    · rw [hid]
      exact mem_lookupKey_nodup (keysOf_buildIndex_nodup prev) hp12
    · rw [hid]
      exact Option.isNone_iff_eq_none.mp hpred
  · rintro ⟨hc, hp⟩
    refine ⟨(j.id, j), ?_, rfl⟩
    rw [List.mem_filter]
    exact ⟨lookupKey_mem hc, by simp [hp]⟩

theorem mem_updated_iff {cur prev : List Job} {u : UpdatedJob} :
    u ∈ (detect_job_changes cur prev).updated ↔
      ∃ cj pj, lookupKey (buildIndex cur) cj.id = some cj ∧
        lookupKey (buildIndex prev) cj.id = some pj ∧
        job_field_changes cj pj ≠ [] ∧ u = ⟨cj, job_field_changes cj pj⟩ := by
  rw [updated_def, List.mem_filterMap]
  constructor
  · rintro ⟨p, hp, hgp⟩
    obtain ⟨hjm, hid⟩ := mem_buildIndex hp
    have hp12 : (p.1, p.2) ∈ buildIndex cur := by simpa using hp
    cases hprev : lookupKey (buildIndex prev) p.1 with
    | none =>
        rw [hprev] at hgp
        exact absurd hgp (by simp)
    | some pj =>
        rw [hprev] at hgp
        have hgp2 : (if job_field_changes p.2 pj = [] then none
            else some (⟨p.2, job_field_changes p.2 pj⟩ : UpdatedJob)) = some u := hgp
        by_cases hcs : job_field_changes p.2 pj = []
        · rw [if_pos hcs] at hgp2
          exact absurd hgp2 (by simp)
        · rw [if_neg hcs] at hgp2
          refine ⟨p.2, pj, ?_, ?_, hcs, ?_⟩
          · rw [hid]
            exact mem_lookupKey_nodup (keysOf_buildIndex_nodup cur) hp12
          · rw [hid]
            exact hprev
          · injection hgp2 with h
            exact h.symm
  · rintro ⟨cj, pj, hc, hp, hne, rfl⟩
    refine ⟨(cj.id, cj), lookupKey_mem hc, ?_⟩
    have : lookupKey (buildIndex prev) (cj.id, cj).1 = some pj := hp
    rw [this]
    simp [hne]

theorem filterMap_ids_sublist {β : Type} (idx : List (String × Job))
    (g : String × Job → Option β) (f : β → String)
    (hg : ∀ p ∈ idx, ∀ u, g p = some u → f u = p.1) :
    List.Sublist ((idx.filterMap g).map f) (keysOf idx) := by
  induction idx with
  | nil => simp
  | cons p idx ih =>
      have ih2 := ih (fun q hq u hu => hg q (List.mem_cons_of_mem _ hq) u hu)
      cases hgp : g p with
      | none =>
          rw [List.filterMap_cons_none hgp]
          exact ih2.trans (List.sublist_cons_self _ _)
      | some u =>
          rw [List.filterMap_cons_some hgp, List.map_cons,
            hg p (List.mem_cons_self _ _) u hgp]
          exact List.cons_sublist_cons.mpr ih2

theorem map_snd_id_filter (idx : List (String × Job)) (q : String × Job → Bool)
    (hq : ∀ p ∈ idx, p.2.id = p.1) :
    ((idx.filter q).map (fun p => p.2)).map (fun j => j.id) = keysOf (idx.filter q) := by
  rw [List.map_map]
  exact List.map_congr_left fun p hp => hq p (List.mem_of_mem_filter hp)

theorem added_ids_eq_keys (cur prev : List Job) :
    idsOf (detect_job_changes cur prev).added =
      keysOf ((buildIndex cur).filter fun p => (lookupKey (buildIndex prev) p.1).isNone) := by
  rw [added_def]
  exact map_snd_id_filter _ _ (fun p hp => (mem_buildIndex hp).2)

theorem removed_ids_eq_keys (cur prev : List Job) :
    idsOf (detect_job_changes cur prev).removed =
      keysOf ((buildIndex prev).filter fun p => (lookupKey (buildIndex cur) p.1).isNone) := by
  rw [removed_def]
  exact map_snd_id_filter _ _ (fun p hp => (mem_buildIndex hp).2)

theorem added_ids_sublist_keys (cur prev : List Job) :
    List.Sublist (idsOf (detect_job_changes cur prev).added) (keysOf (buildIndex cur)) := by
  rw [added_ids_eq_keys]
  exact (List.filter_sublist _).map _

theorem removed_ids_sublist_keys (cur prev : List Job) :
    List.Sublist (idsOf (detect_job_changes cur prev).removed)
      (keysOf (buildIndex prev)) := by
  rw [removed_ids_eq_keys]
  exact (List.filter_sublist _).map _

theorem updated_ids_sublist_keys (cur prev : List Job) :
    List.Sublist ((detect_job_changes cur prev).updated.map (fun u => u.job.id))
      (keysOf (buildIndex cur)) := by
  rw [updated_def]
  apply filterMap_ids_sublist
  intro p hp u hu
  obtain ⟨hjm, hid⟩ := mem_buildIndex hp
  cases hprev : lookupKey (buildIndex prev) p.1 with
  | none =>
      rw [hprev] at hu
      exact absurd hu (by simp)
  | some pj =>
      rw [hprev] at hu
      have hu2 : (if job_field_changes p.2 pj = [] then none
          else some (⟨p.2, job_field_changes p.2 pj⟩ : UpdatedJob)) = some u := hu
      by_cases hcs : job_field_changes p.2 pj = []
      · rw [if_pos hcs] at hu2
        exact absurd hu2 (by simp)
      · rw [if_neg hcs] at hu2
        injection hu2 with h
        rw [← h]
        exact hid

theorem added_ids_nodup (cur prev : List Job) :
    (idsOf (detect_job_changes cur prev).added).Nodup :=
  (keysOf_buildIndex_nodup cur).sublist (added_ids_sublist_keys cur prev)

theorem removed_ids_nodup (cur prev : List Job) :
    (idsOf (detect_job_changes cur prev).removed).Nodup :=
  (keysOf_buildIndex_nodup prev).sublist (removed_ids_sublist_keys cur prev)

theorem updated_ids_nodup (cur prev : List Job) :
    ((detect_job_changes cur prev).updated.map (fun u => u.job.id)).Nodup :=
  (keysOf_buildIndex_nodup cur).sublist (updated_ids_sublist_keys cur prev)

theorem id_mem_added_iff {cur prev : List Job} {id : String} :
    id ∈ idsOf (detect_job_changes cur prev).added ↔
      (lookupKey (buildIndex cur) id).isSome ∧
        lookupKey (buildIndex prev) id = none := by
  unfold idsOf
  rw [List.mem_map]
  constructor
  · rintro ⟨j, hj, rfl⟩
    obtain ⟨hc, hp⟩ := mem_added_iff.mp hj
    exact ⟨by rw [hc]; rfl, hp⟩
  · rintro ⟨hc, hp⟩
    cases hlk : lookupKey (buildIndex cur) id with
    | none => rw [hlk] at hc; exact absurd hc (by simp)
    | some cj =>
        have hcj : cj.id = id := (mem_buildIndex (lookupKey_mem hlk)).2
        refine ⟨cj, mem_added_iff.mpr ⟨?_, ?_⟩, hcj⟩
        · rw [hcj]; exact hlk
        · rw [hcj]; exact hp

theorem id_mem_removed_iff {cur prev : List Job} {id : String} :
    id ∈ idsOf (detect_job_changes cur prev).removed ↔
      (lookupKey (buildIndex prev) id).isSome ∧
        lookupKey (buildIndex cur) id = none := by
  unfold idsOf
  rw [List.mem_map]
  constructor
  · rintro ⟨j, hj, rfl⟩
    obtain ⟨hc, hp⟩ := mem_removed_iff.mp hj
    exact ⟨by rw [hc]; rfl, hp⟩
  · rintro ⟨hc, hp⟩
    cases hlk : lookupKey (buildIndex prev) id with
    | none => rw [hlk] at hc; exact absurd hc (by simp)
    | some pj =>
        have hpj : pj.id = id := (mem_buildIndex (lookupKey_mem hlk)).2
        refine ⟨pj, mem_removed_iff.mpr ⟨?_, ?_⟩, hpj⟩
        · rw [hpj]; exact hlk
        · rw [hpj]; exact hp

theorem id_mem_updated_iff {cur prev : List Job} {id : String} :
    id ∈ (detect_job_changes cur prev).updated.map (fun u => u.job.id) ↔
      ∃ cj pj, lookupKey (buildIndex cur) id = some cj ∧
        lookupKey (buildIndex prev) id = some pj ∧
        job_field_changes cj pj ≠ [] := by
  rw [List.mem_map]
  constructor
  · rintro ⟨u, hu, rfl⟩
    obtain ⟨cj, pj, hc, hp, hne, rfl⟩ := mem_updated_iff.mp hu
    exact ⟨cj, pj, hc, hp, hne⟩
  · rintro ⟨cj, pj, hc, hp, hne⟩
    have hcj : cj.id = id := (mem_buildIndex (lookupKey_mem hc)).2
    refine ⟨⟨cj, job_field_changes cj pj⟩,
      mem_updated_iff.mpr ⟨cj, pj, ?_, ?_, hne, rfl⟩, hcj⟩
    · rw [hcj]; exact hc
    · rw [hcj]; exact hp

theorem changes_nil_iff_no_diff {cj pj : Job} :
    job_field_changes cj pj = [] ↔
      ¬primary_diff_exists pj cj ∧ ¬escalated_diff_exists pj cj := by
  rw [job_field_changes_eq_nil_iff]
  unfold primary_diff_exists escalated_diff_exists
  constructor
  · intro h
    constructor
    · rintro ⟨f, hf, hne⟩
      exact hne (h f hf)
    · rintro ⟨hdu, _⟩
      exact hdu (h _ (by decide))
  · rintro ⟨h1, h2⟩ f hf
    by_contra hne
    exact h1 ⟨f, hf, hne⟩

/-- Claim C1: for every listing id present in either snapshot, the id appears
in at most one of the added, removed and updated lists of the change set, and
in none of them exactly when it is present in both snapshots and neither a
primary-field nor an escalated secondary-field difference exists between
the two (indexed) listings. -/
theorem detect_job_changes_partition (cur prev : List Job) (id : String)
    (hid : id ∈ idsOf cur ∨ id ∈ idsOf prev) :
    (id ∈ idsOf (detect_job_changes cur prev).added →
      id ∉ idsOf (detect_job_changes cur prev).removed ∧
        id ∉ (detect_job_changes cur prev).updated.map (fun u => u.job.id)) ∧
    (id ∈ idsOf (detect_job_changes cur prev).removed →
      id ∉ idsOf (detect_job_changes cur prev).added ∧
        id ∉ (detect_job_changes cur prev).updated.map (fun u => u.job.id)) ∧
    (id ∈ (detect_job_changes cur prev).updated.map (fun u => u.job.id) →
      id ∉ idsOf (detect_job_changes cur prev).added ∧
        id ∉ idsOf (detect_job_changes cur prev).removed) ∧
    ((id ∉ idsOf (detect_job_changes cur prev).added ∧
        id ∉ idsOf (detect_job_changes cur prev).removed ∧
        id ∉ (detect_job_changes cur prev).updated.map (fun u => u.job.id)) ↔
      ∃ cj pj, lookupKey (buildIndex cur) id = some cj ∧
        lookupKey (buildIndex prev) id = some pj ∧
        ¬primary_diff_exists pj cj ∧ ¬escalated_diff_exists pj cj) := by
  refine ⟨?_, ?_, ?_, ?_⟩
  · intro hA
    obtain ⟨hc, hp⟩ := id_mem_added_iff.mp hA
    constructor
    · intro hR
      have h2 := (id_mem_removed_iff.mp hR).1
      rw [hp] at h2
      exact absurd h2 (by simp)
    · intro hU
      obtain ⟨cj, pj, _, hp2, _⟩ := id_mem_updated_iff.mp hU
      rw [hp] at hp2
      exact absurd hp2 (by simp)
  · intro hR
    obtain ⟨hp, hc⟩ := id_mem_removed_iff.mp hR
    constructor
    · intro hA
      have h2 := (id_mem_added_iff.mp hA).1
      rw [hc] at h2
      exact absurd h2 (by simp)
    · intro hU
      obtain ⟨cj, pj, hc2, _, _⟩ := id_mem_updated_iff.mp hU
      rw [hc] at hc2
      exact absurd hc2 (by simp)
  · intro hU
    obtain ⟨cj, pj, hc, hp, _⟩ := id_mem_updated_iff.mp hU
    constructor
    · intro hA
      have h2 := (id_mem_added_iff.mp hA).2
      rw [h2] at hp
      exact absurd hp (by simp)
    · intro hR
      have h2 := (id_mem_removed_iff.mp hR).2
      rw [h2] at hc
      exact absurd hc (by simp)
  · constructor
    · rintro ⟨hA, hR, hU⟩
      cases hlc : lookupKey (buildIndex cur) id with
      | none =>
          exfalso
          have hps : (lookupKey (buildIndex prev) id).isSome := by
            rcases hid with h | h
            · rw [← mem_keysOf_buildIndex, ← lookupKey_isSome_iff, hlc] at h
              exact absurd h (by simp)
            · rw [← mem_keysOf_buildIndex, ← lookupKey_isSome_iff] at h
              exact h
          exact hR (id_mem_removed_iff.mpr ⟨hps, hlc⟩)
      | some cj =>
          cases hlp : lookupKey (buildIndex prev) id with
          | none =>
              exact absurd (id_mem_added_iff.mpr ⟨by rw [hlc]; rfl, hlp⟩) hA
          | some pj =>
              refine ⟨cj, pj, rfl, rfl, ?_⟩
              rw [← changes_nil_iff_no_diff]
              by_contra hne
              exact hU (id_mem_updated_iff.mpr ⟨cj, pj, hlc, hlp, hne⟩)
    · rintro ⟨cj, pj, hc, hp, hnd⟩
      refine ⟨?_, ?_, ?_⟩
      · intro hA
        rw [(id_mem_added_iff.mp hA).2] at hp
        exact absurd hp (by simp)
      · intro hR
        rw [(id_mem_removed_iff.mp hR).2] at hc
        exact absurd hc (by simp)
      · intro hU
        obtain ⟨cj2, pj2, hc2, hp2, hne⟩ := id_mem_updated_iff.mp hU
        rw [hc] at hc2
        rw [hp] at hp2
        injection hc2 with hc3
        injection hp2 with hp3
        subst hc3
        subst hp3
        exact hne (changes_nil_iff_no_diff.mpr hnd)

/-- Witness for C1: with current snapshot [a] and empty previous snapshot,
the id a is in the added list and consequently in neither the removed nor
the updated list. -/
theorem detect_job_changes_partition_witness :
    ("a" ∈ idsOf [(⟨"a", []⟩ : Job)] ∨ "a" ∈ idsOf ([] : List Job)) ∧
    ("a" ∉ idsOf (detect_job_changes [(⟨"a", []⟩ : Job)] []).removed ∧
      "a" ∉ (detect_job_changes [(⟨"a", []⟩ : Job)] []).updated.map
        (fun u => u.job.id)) :=
  ⟨Or.inl (by decide),
    (detect_job_changes_partition [(⟨"a", []⟩ : Job)] [] "a" (Or.inl (by decide))).1
      (by decide)⟩

/-- Claim C2: for every id present in both snapshots whose date_updated
differs, the change set holds an updated entry for the current listing whose
diff map contains date_updated with its old and new values together with
every secondary field of all_fields whose value differs, each mapped to its
old and new values. -/
theorem detect_job_changes_escalation (cur prev : List Job) (id : String)
    (cj pj : Job) (hc : lookupKey (buildIndex cur) id = some cj)
    (hp : lookupKey (buildIndex prev) id = some pj)
    (hdu : cj.get Field.date_updated ≠ pj.get Field.date_updated) :
    ∃ u ∈ (detect_job_changes cur prev).updated,
      u.job = cj ∧
      (Field.date_updated, pj.get Field.date_updated, cj.get Field.date_updated) ∈
        u.changes ∧
      ∀ f ∈ all_fields, cj.get f ≠ pj.get f → (f, pj.get f, cj.get f) ∈ u.changes := by
  have hcid : cj.id = id := (mem_buildIndex (lookupKey_mem hc)).2
  have hne : job_field_changes cj pj ≠ [] := by
    intro h
    exact hdu (job_field_changes_eq_nil_iff.mp h _ (by decide))
  have hmem : (⟨cj, job_field_changes cj pj⟩ : UpdatedJob) ∈
      (detect_job_changes cur prev).updated := by
    refine mem_updated_iff.mpr ⟨cj, pj, ?_, ?_, hne, rfl⟩
    · rw [hcid]; exact hc
    · rw [hcid]; exact hp
  refine ⟨⟨cj, job_field_changes cj pj⟩, hmem, rfl, ?_, ?_⟩
  · unfold job_field_changes
    rw [if_pos (mem_diff_fields_keys.mpr ⟨by decide, hdu⟩)]
    exact List.mem_append_left _
      (mem_diff_fields.mpr ⟨by decide, hdu, rfl, rfl⟩)
  · intro f hf hfd
    unfold job_field_changes
    rw [if_pos (mem_diff_fields_keys.mpr ⟨by decide, hdu⟩)]
    exact List.mem_append_right _ (mem_diff_fields.mpr ⟨hf, hfd, rfl, rfl⟩)

/-- Witness for C2: a previous listing with date_updated 0 and title X and a
current listing identical except date_updated 1 and title Y produce an
updated entry whose diff map contains both date_updated and title. -/
theorem detect_job_changes_escalation_witness :
    ((⟨"a", [(Field.date_updated, Value.vInt 1), (Field.title, Value.vStr "Y")]⟩ :
        Job).get Field.date_updated ≠
      (⟨"a", [(Field.date_updated, Value.vInt 0), (Field.title, Value.vStr "X")]⟩ :
        Job).get Field.date_updated) ∧
    (∃ u ∈ (detect_job_changes
        [(⟨"a", [(Field.date_updated, Value.vInt 1), (Field.title, Value.vStr "Y")]⟩ :
          Job)]
        [(⟨"a", [(Field.date_updated, Value.vInt 0), (Field.title, Value.vStr "X")]⟩ :
          Job)]).updated,
      u.job = (⟨"a", [(Field.date_updated, Value.vInt 1), (Field.title, Value.vStr "Y")]⟩ :
          Job) ∧
      (Field.date_updated,
        (⟨"a", [(Field.date_updated, Value.vInt 0), (Field.title, Value.vStr "X")]⟩ :
          Job).get Field.date_updated,
        (⟨"a", [(Field.date_updated, Value.vInt 1), (Field.title, Value.vStr "Y")]⟩ :
          Job).get Field.date_updated) ∈ u.changes ∧
      ∀ f ∈ all_fields,
        (⟨"a", [(Field.date_updated, Value.vInt 1), (Field.title, Value.vStr "Y")]⟩ :
            Job).get f ≠
          (⟨"a", [(Field.date_updated, Value.vInt 0), (Field.title, Value.vStr "X")]⟩ :
            Job).get f →
        (f,
          (⟨"a", [(Field.date_updated, Value.vInt 0), (Field.title, Value.vStr "X")]⟩ :
            Job).get f,
          (⟨"a", [(Field.date_updated, Value.vInt 1), (Field.title, Value.vStr "Y")]⟩ :
            Job).get f) ∈ u.changes) :=
  ⟨by decide,
    detect_job_changes_escalation _ _ "a" _ _ (by decide) (by decide) (by decide)⟩

/-- Claim C8 (amended): the added and updated lists preserve the current
snapshot's iteration order and the removed list preserves the previous
snapshot's iteration order; each id sequence is a subsequence of the ids of
the respective snapshot. -/
theorem detect_job_changes_output_order (cur prev : List Job) :
    List.Sublist (idsOf (detect_job_changes cur prev).added) (idsOf cur) ∧
    List.Sublist ((detect_job_changes cur prev).updated.map (fun u => u.job.id))
      (idsOf cur) ∧
    List.Sublist (idsOf (detect_job_changes cur prev).removed) (idsOf prev) :=
  ⟨(added_ids_sublist_keys cur prev).trans (keysOf_buildIndex_sublist cur),
    (updated_ids_sublist_keys cur prev).trans (keysOf_buildIndex_sublist cur),
    (removed_ids_sublist_keys cur prev).trans (keysOf_buildIndex_sublist prev)⟩

/-- Counterexample for C8 as stated: with previous snapshot [a, b] and empty
current snapshot the removed list is [a, b], whose ids have no listings in
the current snapshot, so their relative order does not follow the current
snapshot's iteration order. -/
theorem detect_job_changes_output_order_cex :
    ¬ pairwise_order_consistent
        (idsOf (detect_job_changes [] [(⟨"a", []⟩ : Job), (⟨"b", []⟩ : Job)]).removed)
        ([] : List Job) := by
  intro h
  obtain ⟨k, l, _, _, _⟩ := h ⟨0, by decide⟩ ⟨1, by decide⟩ (by decide)
  exact Nat.not_lt_zero _ k.isLt

/-- Claim C10: when a snapshot holds two listings with the same id, the later
occurrence determines that id's classification and diff, and each output
list holds at most one element per id. -/
theorem detect_job_changes_duplicate_ids (cur prev : List Job) :
    (idsOf (detect_job_changes cur prev).added).Nodup ∧
    ((detect_job_changes cur prev).updated.map (fun u => u.job.id)).Nodup ∧
    (idsOf (detect_job_changes cur prev).removed).Nodup ∧
    (∀ j ∈ (detect_job_changes cur prev).added,
      lastOcc cur j.id = some j ∧ lastOcc prev j.id = none) ∧
    (∀ u ∈ (detect_job_changes cur prev).updated, ∃ cj pj,
      lastOcc cur u.job.id = some cj ∧ lastOcc prev u.job.id = some pj ∧
        u = ⟨cj, job_field_changes cj pj⟩) ∧
    (∀ j ∈ (detect_job_changes cur prev).removed,
      lastOcc prev j.id = some j ∧ lastOcc cur j.id = none) := by
  refine ⟨added_ids_nodup cur prev, updated_ids_nodup cur prev,
    removed_ids_nodup cur prev, ?_, ?_, ?_⟩
  · intro j hj
    obtain ⟨hc, hp⟩ := mem_added_iff.mp hj
    refine ⟨?_, ?_⟩
    · rw [← lookupKey_buildIndex]; exact hc
    · rw [← lookupKey_buildIndex]; exact hp
  · intro u hu
    obtain ⟨cj, pj, hc, hp, hne, rfl⟩ := mem_updated_iff.mp hu
    refine ⟨cj, pj, ?_, ?_, rfl⟩
    · rw [← lookupKey_buildIndex]; exact hc
    · rw [← lookupKey_buildIndex]; exact hp
  · intro j hj
    obtain ⟨hp, hc⟩ := mem_removed_iff.mp hj
    refine ⟨?_, ?_⟩
    · rw [← lookupKey_buildIndex]; exact hp
    · rw [← lookupKey_buildIndex]; exact hc

/-- Witness for C10: a current snapshot with two listings of id a followed by
date_updated 1 and 2 against a previous snapshot with date_updated 1 yields
an updated entry built from the later occurrence. -/
theorem detect_job_changes_duplicate_ids_witness :
    ((⟨⟨"a", [(Field.date_updated, Value.vInt 2)]⟩,
        [(Field.date_updated, Value.vInt 1, Value.vInt 2)]⟩ : UpdatedJob) ∈
      (detect_job_changes
        [(⟨"a", [(Field.date_updated, Value.vInt 1)]⟩ : Job),
          (⟨"a", [(Field.date_updated, Value.vInt 2)]⟩ : Job)]
        [(⟨"a", [(Field.date_updated, Value.vInt 1)]⟩ : Job)]).updated) ∧
    (∃ cj pj,
      lastOcc
        [(⟨"a", [(Field.date_updated, Value.vInt 1)]⟩ : Job),
          (⟨"a", [(Field.date_updated, Value.vInt 2)]⟩ : Job)] "a" = some cj ∧
      lastOcc [(⟨"a", [(Field.date_updated, Value.vInt 1)]⟩ : Job)] "a" = some pj ∧
      (⟨⟨"a", [(Field.date_updated, Value.vInt 2)]⟩,
        [(Field.date_updated, Value.vInt 1, Value.vInt 2)]⟩ : UpdatedJob) =
        ⟨cj, job_field_changes cj pj⟩) :=
  ⟨by decide,
    (detect_job_changes_duplicate_ids
        [(⟨"a", [(Field.date_updated, Value.vInt 1)]⟩ : Job),
          (⟨"a", [(Field.date_updated, Value.vInt 2)]⟩ : Job)]
        [(⟨"a", [(Field.date_updated, Value.vInt 1)]⟩ : Job)]).2.2.2.2.1
      ⟨⟨"a", [(Field.date_updated, Value.vInt 2)]⟩,
        [(Field.date_updated, Value.vInt 1, Value.vInt 2)]⟩ (by decide)⟩

/- Update Applier lemmas. -/

theorem process_updates_trace (entries : List UpdatedJob) (store : List Job) :
    (process_updates entries store).trace =
      entries.map (fun u => (⟨u.job.id, update_payload u⟩ : WriteOp)) := by
  induction entries generalizing store with
  | nil => rfl
  | cons u rest ih =>
      cases h : update_job_posting store u.job.id (update_payload u) with
      | some store2 => simp [process_updates, h, ih]
      | none => simp [process_updates, h, ih]

theorem filter_write_id_singleton {l : List UpdatedJob}
    (hn : (l.map (fun u => u.job.id)).Nodup) {u : UpdatedJob} (hu : u ∈ l) :
    ((l.map (fun v => (⟨v.job.id, update_payload v⟩ : WriteOp))).filter
        (fun w => decide (w.job_id = u.job.id))) =
      [⟨u.job.id, update_payload u⟩] := by
  induction l with
  | nil => simp at hu
  | cons v l ih =>
      rw [List.map_cons, List.nodup_cons] at hn
      rcases List.mem_cons.mp hu with h | h
      · subst h
        rw [List.map_cons, List.filter_cons]
        simp only [decide_eq_true_eq]
        rw [if_pos trivial]
        congr 1
        rw [List.filter_eq_nil_iff]
        rintro w hw
        rw [List.mem_map] at hw
        obtain ⟨x, hx, rfl⟩ := hw
        simp only [decide_eq_true_eq]
        intro hEq
        exact hn.1 (hEq ▸ List.mem_map_of_mem (fun y => y.job.id) hx)
      · have hvne : ¬(v.job.id = u.job.id) := by
          intro hEq
          exact hn.1 (hEq ▸ List.mem_map_of_mem (fun y => y.job.id) h)
        rw [List.map_cons, List.filter_cons]
        simp only [decide_eq_true_eq]
        rw [if_neg hvne]
        exact ih hn.2 h

/-- Claim C3: for every entry of the updated list the pipeline issues exactly
one update_job_posting call for that listing, whose updates dict is the
entire current listing when date_updated is in the diff map and otherwise
exactly the changed field-to-new-value pairs. -/
theorem process_job_changes_one_write_per_update (cur stored : List Job)
    (u : UpdatedJob) (hu : u ∈ (detect_job_changes cur stored).updated) :
    (process_job_changes cur stored).trace.filter
        (fun w => decide (w.job_id = u.job.id)) =
      [⟨u.job.id,
        if Field.date_updated ∈ u.changes.map (fun c => c.1) then u.job.fields
        else u.changes.map (fun c => (c.1, c.2.2))⟩] := by
  have htr : (process_job_changes cur stored).trace =
      (detect_job_changes cur stored).updated.map
        (fun v => (⟨v.job.id, update_payload v⟩ : WriteOp)) :=
    process_updates_trace _ _
  rw [htr, filter_write_id_singleton (updated_ids_nodup cur stored) hu]
  rfl

/-- Witness for C3: one updated entry with a date_updated change receives one
full-record write carrying the entire current listing dict. -/
theorem process_job_changes_one_write_per_update_witness :
    ((⟨⟨"a", [(Field.date_updated, Value.vInt 2)]⟩,
        [(Field.date_updated, Value.vInt 1, Value.vInt 2)]⟩ : UpdatedJob) ∈
      (detect_job_changes [(⟨"a", [(Field.date_updated, Value.vInt 2)]⟩ : Job)]
        [(⟨"a", [(Field.date_updated, Value.vInt 1)]⟩ : Job)]).updated) ∧
    ((process_job_changes [(⟨"a", [(Field.date_updated, Value.vInt 2)]⟩ : Job)]
        [(⟨"a", [(Field.date_updated, Value.vInt 1)]⟩ : Job)]).trace.filter
          (fun w => decide (w.job_id = "a")) =
      [⟨"a",
        if Field.date_updated ∈
            ([(Field.date_updated, Value.vInt 1, Value.vInt 2)].map (fun c => c.1))
          then [(Field.date_updated, Value.vInt 2)]
        else [(Field.date_updated, Value.vInt 1, Value.vInt 2)].map
          (fun c => (c.1, c.2.2))⟩]) :=
  ⟨by decide,
    process_job_changes_one_write_per_update
      [(⟨"a", [(Field.date_updated, Value.vInt 2)]⟩ : Job)]
      [(⟨"a", [(Field.date_updated, Value.vInt 1)]⟩ : Job)]
      ⟨⟨"a", [(Field.date_updated, Value.vInt 2)]⟩,
        [(Field.date_updated, Value.vInt 1, Value.vInt 2)]⟩ (by decide)⟩

theorem update_job_posting_eq_none_iff {jobs : List Job} {k : String}
    {ups : List (Field × Value)} :
    update_job_posting jobs k ups = none ↔ k ∉ idsOf jobs := by
  induction jobs with
  | nil => simp [update_job_posting, idsOf]
  | cons j rest ih =>
      rw [idsOf_cons]
      by_cases hj : j.id = k
      · simp [update_job_posting, hj]
      · simp only [update_job_posting, if_neg hj]
        cases h : update_job_posting rest k ups with
        | some rest2 =>
            have hk2 : k ∈ idsOf rest := by
              by_contra hmem
              have h2 := ih.mpr hmem
              rw [h2] at h
              exact absurd h (by simp)
            apply iff_of_false (by simp)
            intro hno
            exact hno (List.mem_cons.mpr (Or.inr hk2))
        | none =>
            apply iff_of_true rfl
            intro hmem
            rcases List.mem_cons.mp hmem with hh | hh
            · exact hj hh.symm
            · exact (ih.mp h) hh

theorem update_job_posting_ids {jobs : List Job} {k : String}
    {ups : List (Field × Value)} {jobs2 : List Job}
    (h : update_job_posting jobs k ups = some jobs2) : idsOf jobs2 = idsOf jobs := by
  induction jobs generalizing jobs2 with
  | nil => exact absurd h (by simp [update_job_posting])
  | cons j rest ih =>
      by_cases hj : j.id = k
      · simp only [update_job_posting, if_pos hj] at h
        injection h with h2
        subst h2
        rfl
      · simp only [update_job_posting, if_neg hj] at h
        cases hrec : update_job_posting rest k ups with
        | some rest2 =>
            rw [hrec] at h
            injection h with h2
            subst h2
            rw [idsOf_cons, idsOf_cons, ih hrec]
        | none =>
            rw [hrec] at h
            exact absurd h (by simp)

theorem update_job_posting_findJob {jobs : List Job} {k : String}
    {ups : List (Field × Value)} {jobs2 : List Job}
    (h : update_job_posting jobs k ups = some jobs2) (id : String) :
    findJob jobs2 id =
      if id = k then (findJob jobs k).map (fun j => patchJob j ups)
      else findJob jobs id := by
  induction jobs generalizing jobs2 with
  | nil => exact absurd h (by simp [update_job_posting])
  | cons j rest ih =>
      by_cases hj : j.id = k
      · simp only [update_job_posting, if_pos hj] at h
        injection h with h2
        subst h2
        by_cases hid : id = k
        · subst hid
          rw [if_pos rfl]
          rw [show findJob ({ j with fields := applyUpdates j.fields ups } :: rest) id =
            some { j with fields := applyUpdates j.fields ups } from by simp [findJob, hj]]
          rw [show findJob (j :: rest) id = some j from by simp [findJob, hj]]
          rfl
        · rw [if_neg hid]
          have hne : ¬(j.id = id) := fun hc => hid (hc.symm.trans hj)
          rw [show findJob ({ j with fields := applyUpdates j.fields ups } :: rest) id =
            findJob rest id from by simp [findJob, hne]]
          rw [show findJob (j :: rest) id = findJob rest id from by simp [findJob, hne]]
      · simp only [update_job_posting, if_neg hj] at h
        cases hrec : update_job_posting rest k ups with
        | none =>
            rw [hrec] at h
            exact absurd h (by simp)
        | some rest2 =>
            rw [hrec] at h
            injection h with h2
            subst h2
            by_cases hji : j.id = id
            · have hidk : ¬(id = k) := fun hc => hj (hji.trans hc)
              rw [if_neg hidk]
              simp [findJob, hji]
            · rw [show findJob (j :: rest2) id = findJob rest2 id from by
                simp [findJob, hji]]
              rw [ih hrec]
              by_cases hid : id = k
              · rw [if_pos hid, if_pos hid]
                rw [show findJob (j :: rest) k = findJob rest k from by simp [findJob, hj]]
              · rw [if_neg hid, if_neg hid]
                rw [show findJob (j :: rest) id = findJob rest id from by
                  simp [findJob, hji]]

theorem process_updates_store_ids (entries : List UpdatedJob) (store : List Job) :
    idsOf (process_updates entries store).store = idsOf store := by
  induction entries generalizing store with
  | nil => rfl
  | cons u rest ih =>
      cases h : update_job_posting store u.job.id (update_payload u) with
      | some store2 =>
          have hs : (process_updates (u :: rest) store).store =
              (process_updates rest store2).store := by
            simp [process_updates, h]
          rw [hs, ih, update_job_posting_ids h]
      | none =>
          have hs : (process_updates (u :: rest) store).store =
              (process_updates rest store).store := by
            simp [process_updates, h]
          rw [hs, ih]

/-- Claim C4: a failing update in a batch (its id absent from the store) is
recorded as a failure entry carrying its id and reason and clears the
overall success flag, but does not abort the batch: every entry is still
processed (one write each) and the store ends in the state produced by
processing the remaining entries. -/
theorem process_updates_partial_failure (l1 l2 : List UpdatedJob) (e : UpdatedJob)
    (store : List Job) (he : e.job.id ∉ idsOf store) :
    (⟨e.job.id, update_reason e⟩ : UpdateFailure) ∈
      (process_updates (l1 ++ e :: l2) store).failures ∧
    (process_updates (l1 ++ e :: l2) store).success = false ∧
    (process_updates (l1 ++ e :: l2) store).trace.length = (l1 ++ e :: l2).length ∧
    (process_updates (l1 ++ e :: l2) store).store =
      (process_updates (l1 ++ l2) store).store := by
  induction l1 generalizing store with
  | nil =>
      have hnone : update_job_posting store e.job.id (update_payload e) = none :=
        update_job_posting_eq_none_iff.mpr he
      refine ⟨?_, ?_, ?_, ?_⟩ <;>
        simp [process_updates, hnone, process_updates_trace]
  | cons a l1 ih =>
      cases ha : update_job_posting store a.job.id (update_payload a) with
      | some store2 =>
          have he2 : e.job.id ∉ idsOf store2 := by
            rw [update_job_posting_ids ha]
            exact he
          have hrec := ih store2 he2
          refine ⟨?_, ?_, ?_, ?_⟩
          · simpa [process_updates, ha] using hrec.1
          · simpa [process_updates, ha] using hrec.2.1
          · simpa [process_updates, ha] using hrec.2.2.1
          · simpa [process_updates, ha] using hrec.2.2.2
      | none =>
          have hrec := ih store he
          refine ⟨?_, ?_, ?_, ?_⟩
          · simp only [List.cons_append]
            simp [process_updates, ha]
            exact Or.inr hrec.1
          · simp [process_updates, ha]
          · simpa [process_updates, ha] using hrec.2.2.1
          · simpa [process_updates, ha] using hrec.2.2.2

/-- Witness for C4: of three updates the middle one references the absent id
jX; the batch reports that single failure with success false while the first
and third updates are applied to the store. -/
theorem process_updates_partial_failure_witness :
    ((⟨⟨"jX", [(Field.active, Value.vBool false)]⟩,
        [(Field.active, Value.vBool true, Value.vBool false)]⟩ : UpdatedJob).job.id ∉
      idsOf [(⟨"j1", [(Field.active, Value.vBool true)]⟩ : Job),
        (⟨"j3", [(Field.is_visible, Value.vBool true)]⟩ : Job)]) ∧
    ((⟨"jX",
        update_reason
          (⟨⟨"jX", [(Field.active, Value.vBool false)]⟩,
            [(Field.active, Value.vBool true, Value.vBool false)]⟩ : UpdatedJob)⟩ :
        UpdateFailure) ∈
      (process_updates
        ([(⟨⟨"j1", [(Field.active, Value.vBool false)]⟩,
            [(Field.active, Value.vBool true, Value.vBool false)]⟩ : UpdatedJob)] ++
          (⟨⟨"jX", [(Field.active, Value.vBool false)]⟩,
            [(Field.active, Value.vBool true, Value.vBool false)]⟩ : UpdatedJob) ::
          [(⟨⟨"j3", [(Field.is_visible, Value.vBool false)]⟩,
            [(Field.is_visible, Value.vBool true, Value.vBool false)]⟩ : UpdatedJob)])
        [(⟨"j1", [(Field.active, Value.vBool true)]⟩ : Job),
          (⟨"j3", [(Field.is_visible, Value.vBool true)]⟩ : Job)]).failures ∧
      (process_updates
        ([(⟨⟨"j1", [(Field.active, Value.vBool false)]⟩,
            [(Field.active, Value.vBool true, Value.vBool false)]⟩ : UpdatedJob)] ++
          (⟨⟨"jX", [(Field.active, Value.vBool false)]⟩,
            [(Field.active, Value.vBool true, Value.vBool false)]⟩ : UpdatedJob) ::
          [(⟨⟨"j3", [(Field.is_visible, Value.vBool false)]⟩,
            [(Field.is_visible, Value.vBool true, Value.vBool false)]⟩ : UpdatedJob)])
        [(⟨"j1", [(Field.active, Value.vBool true)]⟩ : Job),
          (⟨"j3", [(Field.is_visible, Value.vBool true)]⟩ : Job)]).success = false ∧
      (process_updates
        ([(⟨⟨"j1", [(Field.active, Value.vBool false)]⟩,
            [(Field.active, Value.vBool true, Value.vBool false)]⟩ : UpdatedJob)] ++
          (⟨⟨"jX", [(Field.active, Value.vBool false)]⟩,
            [(Field.active, Value.vBool true, Value.vBool false)]⟩ : UpdatedJob) ::
          [(⟨⟨"j3", [(Field.is_visible, Value.vBool false)]⟩,
            [(Field.is_visible, Value.vBool true, Value.vBool false)]⟩ : UpdatedJob)])
        [(⟨"j1", [(Field.active, Value.vBool true)]⟩ : Job),
          (⟨"j3", [(Field.is_visible, Value.vBool true)]⟩ : Job)]).trace.length =
        ([(⟨⟨"j1", [(Field.active, Value.vBool false)]⟩,
            [(Field.active, Value.vBool true, Value.vBool false)]⟩ : UpdatedJob)] ++
          (⟨⟨"jX", [(Field.active, Value.vBool false)]⟩,
            [(Field.active, Value.vBool true, Value.vBool false)]⟩ : UpdatedJob) ::
          [(⟨⟨"j3", [(Field.is_visible, Value.vBool false)]⟩,
            [(Field.is_visible, Value.vBool true, Value.vBool false)]⟩ :
            UpdatedJob)]).length ∧
      (process_updates
        ([(⟨⟨"j1", [(Field.active, Value.vBool false)]⟩,
            [(Field.active, Value.vBool true, Value.vBool false)]⟩ : UpdatedJob)] ++
          (⟨⟨"jX", [(Field.active, Value.vBool false)]⟩,
            [(Field.active, Value.vBool true, Value.vBool false)]⟩ : UpdatedJob) ::
          [(⟨⟨"j3", [(Field.is_visible, Value.vBool false)]⟩,
            [(Field.is_visible, Value.vBool true, Value.vBool false)]⟩ : UpdatedJob)])
        [(⟨"j1", [(Field.active, Value.vBool true)]⟩ : Job),
          (⟨"j3", [(Field.is_visible, Value.vBool true)]⟩ : Job)]).store =
      (process_updates
        ([(⟨⟨"j1", [(Field.active, Value.vBool false)]⟩,
            [(Field.active, Value.vBool true, Value.vBool false)]⟩ : UpdatedJob)] ++
          [(⟨⟨"j3", [(Field.is_visible, Value.vBool false)]⟩,
            [(Field.is_visible, Value.vBool true, Value.vBool false)]⟩ : UpdatedJob)])
        [(⟨"j1", [(Field.active, Value.vBool true)]⟩ : Job),
          (⟨"j3", [(Field.is_visible, Value.vBool true)]⟩ : Job)]).store) :=
  ⟨by decide,
    process_updates_partial_failure
      [(⟨⟨"j1", [(Field.active, Value.vBool false)]⟩,
        [(Field.active, Value.vBool true, Value.vBool false)]⟩ : UpdatedJob)]
      [(⟨⟨"j3", [(Field.is_visible, Value.vBool false)]⟩,
        [(Field.is_visible, Value.vBool true, Value.vBool false)]⟩ : UpdatedJob)]
      (⟨⟨"jX", [(Field.active, Value.vBool false)]⟩,
        [(Field.active, Value.vBool true, Value.vBool false)]⟩ : UpdatedJob)
      [(⟨"j1", [(Field.active, Value.vBool true)]⟩ : Job),
        (⟨"j3", [(Field.is_visible, Value.vBool true)]⟩ : Job)] (by decide)⟩

/-- Claim C6: in dual_write mode every write operation invokes both the file
and the database backend write method, with the database write attempted
even when the file write fails; the combined result succeeds only if both
backend writes succeed; and every read operation consults only the file
backend. -/
theorem data_storage_dual_write (ds : DataStorage)
    (hm : ds.migration_mode = MigrationMode.dual_write) :
    (∀ jobs : List Job,
      (ds.save_job_postings jobs).calls =
        [BackendCall.json_save_jobs, BackendCall.db_save_jobs] ∧
      (ds.save_job_postings jobs).ok =
        ((jsonSaveJobs ds.json_backend jobs).1 &&
          (dbSaveJobs ds.database_backend jobs).1)) ∧
    (∀ tr : List (String × TrackingEntry),
      (ds.save_message_tracking tr).calls =
        [BackendCall.json_save_tracking, BackendCall.db_save_tracking] ∧
      (ds.save_message_tracking tr).ok =
        ((jsonSaveTracking ds.json_backend tr).1 &&
          (dbSaveTracking ds.database_backend tr).1)) ∧
    (∀ job_id message_id channel_id : String, ∀ now : Nat,
      (ds.add_message_tracking job_id message_id channel_id now).calls =
        [BackendCall.json_add_tracking, BackendCall.db_add_tracking] ∧
      (ds.add_message_tracking job_id message_id channel_id now).ok =
        ((jsonAddTracking ds.json_backend job_id message_id channel_id now).1 &&
          (dbAddTracking ds.database_backend job_id message_id channel_id now).1)) ∧
    (∀ job_id : String, ∀ updates : List (Field × Value),
      (ds.update_job_posting job_id updates).calls =
        [BackendCall.json_update_job, BackendCall.db_update_job] ∧
      (ds.update_job_posting job_id updates).ok =
        ((jsonUpdateJob ds.json_backend job_id updates).1 &&
          (dbUpdateJob ds.database_backend job_id updates).1)) ∧
    ds.get_job_postings = ds.json_backend.jobs ∧
    ds.get_message_tracking = ds.json_backend.tracking ∧
    (∀ job_id : String,
      ds.get_job_posting_by_id job_id = findJob ds.json_backend.jobs job_id) := by
  obtain ⟨m, js, db⟩ := ds
  simp only at hm
  subst hm
  refine ⟨?_, ?_, ?_, ?_, ?_, ?_, ?_⟩ <;> intros <;>
    simp [DataStorage.save_job_postings, DataStorage.save_message_tracking,
      DataStorage.add_message_tracking, DataStorage.update_job_posting,
      DataStorage.get_job_postings, DataStorage.get_message_tracking,
      DataStorage.get_job_posting_by_id]

/-- Witness for C6: a dual_write coordinator whose file backend raises on
writes still issues the database write and reports combined failure. -/
theorem data_storage_dual_write_witness :
    ((⟨MigrationMode.dual_write, ⟨[], [], true⟩, ⟨[], [], true, false⟩⟩ :
        DataStorage).save_job_postings []).calls =
      [BackendCall.json_save_jobs, BackendCall.db_save_jobs] ∧
    ((⟨MigrationMode.dual_write, ⟨[], [], true⟩, ⟨[], [], true, false⟩⟩ :
        DataStorage).save_job_postings []).ok =
      ((jsonSaveJobs ⟨[], [], true⟩ []).1 && (dbSaveJobs ⟨[], [], true, false⟩ []).1) :=
  (data_storage_dual_write
    ⟨MigrationMode.dual_write, ⟨[], [], true⟩, ⟨[], [], true, false⟩⟩ rfl).1 []

/-- Claim C7: a coordinator configured for dual_write or database_only whose
connectivity probe fails at construction is demoted to json_only rather than
raising, and from any json_only state every write operation invokes no
database backend write method and leaves the database backend state
unchanged, with the mode staying json_only for the lifetime. -/
theorem data_storage_startup_fallback (mode : MigrationMode)
    (js : JsonBackendState) (db : DbBackendState)
    (hmode : mode = MigrationMode.dual_write ∨ mode = MigrationMode.database_only)
    (hconn : db.conn_ok = false) :
    (DataStorage.mk_init mode js db).migration_mode = MigrationMode.json_only ∧
    (∀ ds : DataStorage, ds.migration_mode = MigrationMode.json_only →
      (∀ jobs : List Job,
        BackendCall.db_save_jobs ∉ (ds.save_job_postings jobs).calls ∧
        (ds.save_job_postings jobs).state.database_backend = ds.database_backend ∧
        (ds.save_job_postings jobs).state.migration_mode = MigrationMode.json_only) ∧
      (∀ tr : List (String × TrackingEntry),
        BackendCall.db_save_tracking ∉ (ds.save_message_tracking tr).calls ∧
        (ds.save_message_tracking tr).state.database_backend = ds.database_backend ∧
        (ds.save_message_tracking tr).state.migration_mode = MigrationMode.json_only) ∧
      (∀ job_id message_id channel_id : String, ∀ now : Nat,
        BackendCall.db_add_tracking ∉
          (ds.add_message_tracking job_id message_id channel_id now).calls ∧
        (ds.add_message_tracking job_id message_id channel_id now).state.database_backend =
          ds.database_backend ∧
        (ds.add_message_tracking job_id message_id channel_id now).state.migration_mode =
          MigrationMode.json_only) ∧
      (∀ job_id : String, ∀ updates : List (Field × Value),
        BackendCall.db_update_job ∉ (ds.update_job_posting job_id updates).calls ∧
        (ds.update_job_posting job_id updates).state.database_backend =
          ds.database_backend ∧
        (ds.update_job_posting job_id updates).state.migration_mode =
          MigrationMode.json_only)) := by
  constructor
  · rcases hmode with h | h <;> subst h <;>
      simp [DataStorage.mk_init, hconn]
  · intro ds hds
    obtain ⟨m, js2, db2⟩ := ds
    simp only at hds
    subst hds
    refine ⟨?_, ?_, ?_, ?_⟩ <;> intros <;>
      simp [DataStorage.save_job_postings, DataStorage.save_message_tracking,
        DataStorage.add_message_tracking, DataStorage.update_job_posting]

/-- Witness for C7: constructing in dual_write mode with a failing probe
yields json_only, and a save from the demoted state issues no database
write. -/
theorem data_storage_startup_fallback_witness :
    (DataStorage.mk_init MigrationMode.dual_write ⟨[], [], false⟩
        ⟨[], [], false, false⟩).migration_mode = MigrationMode.json_only ∧
    (BackendCall.db_save_jobs ∉
      ((⟨MigrationMode.json_only, ⟨[], [], false⟩, ⟨[], [], false, false⟩⟩ :
          DataStorage).save_job_postings []).calls ∧
      ((⟨MigrationMode.json_only, ⟨[], [], false⟩, ⟨[], [], false, false⟩⟩ :
          DataStorage).save_job_postings []).state.database_backend =
        (⟨MigrationMode.json_only, ⟨[], [], false⟩, ⟨[], [], false, false⟩⟩ :
          DataStorage).database_backend ∧
      ((⟨MigrationMode.json_only, ⟨[], [], false⟩, ⟨[], [], false, false⟩⟩ :
          DataStorage).save_job_postings []).state.migration_mode =
        MigrationMode.json_only) :=
  ⟨(data_storage_startup_fallback MigrationMode.dual_write ⟨[], [], false⟩
      ⟨[], [], false, false⟩ (Or.inl rfl) rfl).1,
    ((data_storage_startup_fallback MigrationMode.dual_write ⟨[], [], false⟩
        ⟨[], [], false, false⟩ (Or.inl rfl) rfl).2
      ⟨MigrationMode.json_only, ⟨[], [], false⟩, ⟨[], [], false, false⟩⟩ rfl).1 []⟩

/-- Counterexample for C9 as stated: two successful add_message_tracking
calls for the same listing id with distinct message and channel pairs do not
retain both entries; the second overwrites the first in the id-keyed
tracking dict. -/
theorem add_message_tracking_cex :
    (jsonAddTracking ⟨[], [], false⟩ "job1" "m1" "c1" 5).1 = true ∧
    (jsonAddTracking (jsonAddTracking ⟨[], [], false⟩ "job1" "m1" "c1" 5).2
        "job1" "m2" "c2" 6).1 = true ∧
    ("job1", (⟨"m1", "c1", 5⟩ : TrackingEntry)) ∉
      (jsonAddTracking (jsonAddTracking ⟨[], [], false⟩ "job1" "m1" "c1" 5).2
        "job1" "m2" "c2" 6).2.tracking := by
  decide

/-- Claim C9 (amended): the tracking state holds at most one entry per
listing id; a second successful add for the same listing replaces the first,
retaining only the most recent message and channel pair; other listings are
unaffected and a listing never notified keeps no entry.  The database
backend's add behaves the same way on its id-keyed tracking table. -/
theorem add_message_tracking_replaces (s : JsonBackendState)
    (hio : s.io_fail = false) (job_id m1 c1 m2 c2 : String) (t1 t2 : Nat) :
    (jsonAddTracking s job_id m1 c1 t1).1 = true ∧
    (jsonAddTracking (jsonAddTracking s job_id m1 c1 t1).2 job_id m2 c2 t2).1 = true ∧
    lookupKey (jsonAddTracking (jsonAddTracking s job_id m1 c1 t1).2
        job_id m2 c2 t2).2.tracking job_id = some ⟨m2, c2, t2⟩ ∧
    (∀ id2, ¬(id2 = job_id) →
      lookupKey (jsonAddTracking (jsonAddTracking s job_id m1 c1 t1).2
          job_id m2 c2 t2).2.tracking id2 = lookupKey s.tracking id2) ∧
    ((keysOf s.tracking).Nodup →
      (keysOf (jsonAddTracking (jsonAddTracking s job_id m1 c1 t1).2
          job_id m2 c2 t2).2.tracking).Nodup) ∧
    (∀ dbs : DbBackendState, dbs.io_fail = false → (findJob dbs.jobs job_id).isSome →
      lookupKey (dbAddTracking (dbAddTracking dbs job_id m1 c1 t1).2
          job_id m2 c2 t2).2.tracking job_id = some ⟨m2, c2, t2⟩) := by
  have h1 : jsonAddTracking s job_id m1 c1 t1 =
      (true, { s with tracking := insertKey s.tracking job_id ⟨m1, c1, t1⟩ }) := by
    simp [jsonAddTracking, hio]
  have h2 : jsonAddTracking (jsonAddTracking s job_id m1 c1 t1).2 job_id m2 c2 t2 =
      (true, { s with tracking :=
        (insertKey (insertKey s.tracking job_id ⟨m1, c1, t1⟩) job_id ⟨m2, c2, t2⟩) }) := by
    rw [h1]
    simp [jsonAddTracking, hio]
  refine ⟨by rw [h1], by rw [h2], ?_, ?_, ?_, ?_⟩
  · rw [h2]
    simp [lookupKey_insertKey]
  · intro id2 hne
    rw [h2]
    simp only [lookupKey_insertKey]
    rw [if_neg (fun h => hne h.symm), if_neg (fun h => hne h.symm)]
  · intro hn
    rw [h2]
    exact keysOf_insertKey_nodup (keysOf_insertKey_nodup hn _ _) _ _
  · intro dbs hdio hfind
    have hd1 : dbAddTracking dbs job_id m1 c1 t1 =
        (true, { dbs with tracking := insertKey dbs.tracking job_id ⟨m1, c1, t1⟩ }) := by
      simp [dbAddTracking, hdio, hfind]
    have hd2 : dbAddTracking (dbAddTracking dbs job_id m1 c1 t1).2 job_id m2 c2 t2 =
        (true, { dbs with tracking :=
          (insertKey (insertKey dbs.tracking job_id ⟨m1, c1, t1⟩) job_id
            ⟨m2, c2, t2⟩) }) := by
      rw [hd1]
      simp [dbAddTracking, hdio, hfind]
    rw [hd2]
    simp [lookupKey_insertKey]

/-- Witness for C9 (amended): starting from an empty tracking state, two adds
for job1 leave exactly the second entry under that id. -/
theorem add_message_tracking_replaces_witness :
    lookupKey (jsonAddTracking (jsonAddTracking ⟨[], [], false⟩ "job1" "m1" "c1" 5).2
        "job1" "m2" "c2" 6).2.tracking "job1" =
      some (⟨"m2", "c2", 6⟩ : TrackingEntry) :=
  (add_message_tracking_replaces ⟨[], [], false⟩ rfl "job1" "m1" "c1" "m2" "c2"
    5 6).2.2.1

/- Idempotence infrastructure. -/

theorem get_patchJob (j : Job) (ups : List (Field × Value)) (f : Field) :
    (patchJob j ups).get f =
      match lastVal ups f with
      | some v => v
      | none => j.get f := by
  unfold patchJob Job.get applyUpdates
  rw [lookupKey_insertAll]
  cases lastVal ups f <;> rfl

theorem findUpdated_eq_some {l : List UpdatedJob} {k : String} {u : UpdatedJob}
    (h : findUpdated l k = some u) : u ∈ l ∧ u.job.id = k := by
  induction l with
  | nil => simp [findUpdated] at h
  | cons a l ih =>
      by_cases ha : a.job.id = k
      · simp [findUpdated, ha] at h
        subst h
        exact ⟨List.mem_cons_self _ _, ha⟩
      · simp [findUpdated, ha] at h
        obtain ⟨h1, h2⟩ := ih h
        exact ⟨List.mem_cons_of_mem _ h1, h2⟩

theorem findUpdated_isSome_iff (l : List UpdatedJob) (k : String) :
    (findUpdated l k).isSome ↔ k ∈ l.map (fun u => u.job.id) := by
  induction l with
  | nil => simp [findUpdated]
  | cons a l ih =>
      rw [List.map_cons]
      by_cases ha : a.job.id = k
      · simp [findUpdated, ha]
      · have hk : ¬(k = a.job.id) := fun h => ha h.symm
        simp [findUpdated, ha, hk, ih]

theorem findUpdated_eq_none_iff (l : List UpdatedJob) (k : String) :
    findUpdated l k = none ↔ k ∉ l.map (fun u => u.job.id) := by
  rw [← findUpdated_isSome_iff]
  cases findUpdated l k <;> simp

theorem process_updates_findJob (entries : List UpdatedJob) (store : List Job)
    (hn : (entries.map (fun u => u.job.id)).Nodup) (id : String) :
    findJob (process_updates entries store).store id =
      match findUpdated entries id with
      | some u => (findJob store id).map (fun j => patchJob j (update_payload u))
      | none => findJob store id := by
  induction entries generalizing store with
  | nil => rfl
  | cons u rest ih =>
      rw [List.map_cons, List.nodup_cons] at hn
      cases ha : update_job_posting store u.job.id (update_payload u) with
      | some store2 =>
          have hst : (process_updates (u :: rest) store).store =
              (process_updates rest store2).store := by
            simp [process_updates, ha]
          rw [hst, ih store2 hn.2]
          by_cases hid : u.job.id = id
          · have hfu : findUpdated (u :: rest) id = some u := by
              simp [findUpdated, hid]
            have hfr : findUpdated rest id = none := by
              rw [findUpdated_eq_none_iff, ← hid]
              exact hn.1
            simp only [hfu, hfr]
            rw [update_job_posting_findJob ha id, if_pos hid.symm, hid]
          · have hfu : findUpdated (u :: rest) id = findUpdated rest id := by
              simp [findUpdated, hid]
            rw [hfu]
            cases hfr : findUpdated rest id with
            | some v =>
                simp only [hfr]
                rw [update_job_posting_findJob ha id, if_neg (fun h => hid h.symm)]
            | none =>
                simp only [hfr]
                rw [update_job_posting_findJob ha id, if_neg (fun h => hid h.symm)]
      | none =>
          have hst : (process_updates (u :: rest) store).store =
              (process_updates rest store).store := by
            simp [process_updates, ha]
          rw [hst, ih store hn.2]
          have hnone : findJob store u.job.id = none := by
            rw [findJob_eq_none_iff]
            exact update_job_posting_eq_none_iff.mp ha
          by_cases hid : u.job.id = id
          · have hfu : findUpdated (u :: rest) id = some u := by
              simp [findUpdated, hid]
            have hfr : findUpdated rest id = none := by
              rw [findUpdated_eq_none_iff, ← hid]
              exact hn.1
            simp only [hfu, hfr]
            rw [← hid, hnone]
            rfl
          · have hfu : findUpdated (u :: rest) id = findUpdated rest id := by
              simp [findUpdated, hid]
            rw [hfu]

theorem keysOf_map_changes (cs : List (Field × Value × Value)) :
    keysOf (cs.map (fun c => (c.1, c.2.2))) = cs.map (fun c => c.1) := by
  simp [keysOf, List.map_map]

theorem lookupKey_map_changes {cs : List (Field × Value × Value)}
    (hn : (cs.map (fun c => c.1)).Nodup) {f : Field} {o n : Value}
    (h : (f, o, n) ∈ cs) :
    lookupKey (cs.map (fun c => (c.1, c.2.2))) f = some n := by
  apply mem_lookupKey_nodup
  · rw [keysOf_map_changes]
    exact hn
  · exact List.mem_map_of_mem (fun c => (c.1, c.2.2)) h

theorem diff_fields_keys_sublist (cj pj : Job) (fs : List Field) :
    List.Sublist ((diff_fields cj pj fs).map (fun c => c.1)) fs := by
  unfold diff_fields
  induction fs with
  | nil => simp
  | cons f fs ih =>
      by_cases h : cj.get f ≠ pj.get f
      · rw [List.filterMap_cons_some (by rw [if_pos h]), List.map_cons]
        exact List.cons_sublist_cons.mpr ih
      · rw [List.filterMap_cons_none (by rw [if_neg h])]
        exact ih.trans (List.sublist_cons_self _ _)

theorem mem_idsOf {jobs : List Job} {k : String} :
    k ∈ idsOf jobs ↔ ∃ j, j ∈ jobs ∧ j.id = k := by
  unfold idsOf
  exact List.mem_map

theorem idsOf_mem_of_mem {jobs : List Job} {j : Job} (h : j ∈ jobs) :
    j.id ∈ idsOf jobs :=
  List.mem_map_of_mem (fun x => x.id) h

theorem process_job_changes_store_eq (cur stored : List Job) :
    (process_job_changes cur stored).store =
      ((process_updates (detect_job_changes cur stored).updated stored).store ++
        (detect_job_changes cur stored).added).filter
        (fun j => decide (j.id ∉ idsOf (detect_job_changes cur stored).removed)) := by
  unfold process_job_changes
  by_cases ha : (detect_job_changes cur stored).added = [] <;>
    by_cases hr : (detect_job_changes cur stored).removed = [] <;>
      simp [ha, hr, idsOf]

theorem detect_after_process_empty (cur stored : List Job)
    (hnd : (idsOf stored).Nodup)
    (hwf : ∀ j ∈ cur, (keysOf j.fields).Nodup)
    (hcov : ∀ id cj pj, lookupKey (buildIndex cur) id = some cj →
      lookupKey (buildIndex stored) id = some pj →
      ∀ f ∈ key_fields, f ∈ keysOf cj.fields ∨ pj.get f = Value.vNull) :
    (detect_job_changes cur (process_job_changes cur stored).store).added = [] ∧
    (detect_job_changes cur (process_job_changes cur stored).store).updated = [] ∧
    (detect_job_changes cur (process_job_changes cur stored).store).removed = [] := by
  have hst3eq := process_job_changes_store_eq cur stored
  have hids1 : idsOf (process_updates (detect_job_changes cur stored).updated
      stored).store = idsOf stored := process_updates_store_ids _ _
  have haddedNew : ∀ j ∈ (detect_job_changes cur stored).added,
      j.id ∉ idsOf stored := by
    intro j hj hmem
    have h2 := (mem_added_iff.mp hj).2
    rw [lookupKey_eq_none_iff] at h2
    exact h2 ((mem_keysOf_buildIndex stored j.id).mpr hmem)
  have hst2Nodup : (idsOf
      ((process_updates (detect_job_changes cur stored).updated stored).store ++
        (detect_job_changes cur stored).added)).Nodup := by
    rw [idsOf_append, List.nodup_append]
    refine ⟨by rw [hids1]; exact hnd, added_ids_nodup cur stored, ?_⟩
    intro a ha hb
    obtain ⟨j, hj, hjid⟩ := mem_idsOf.mp hb
    rw [hids1] at ha
    exact haddedNew j hj (hjid ▸ ha)
  have hst3Nodup : (idsOf (process_job_changes cur stored).store).Nodup := by
    apply hst2Nodup.sublist
    rw [hst3eq]
    unfold idsOf
    exact (List.filter_sublist _).map _
  have hremNotCur : ∀ a ∈ idsOf (detect_job_changes cur stored).removed,
      a ∉ idsOf cur := by
    intro a ha hmem
    have h2 := (id_mem_removed_iff.mp ha).2
    rw [lookupKey_eq_none_iff] at h2
    exact h2 ((mem_keysOf_buildIndex cur a).mpr hmem)
  have hmem_st3 : ∀ j : Job,
      j ∈ (process_updates (detect_job_changes cur stored).updated stored).store ++
        (detect_job_changes cur stored).added →
      j.id ∈ idsOf cur → j ∈ (process_job_changes cur stored).store := by
    intro j hj hcur2
    rw [hst3eq, List.mem_filter]
    refine ⟨hj, ?_⟩
    simp only [decide_eq_true_eq]
    intro hrem
    exact hremNotCur _ hrem hcur2
  have hid_st3_cur : ∀ j ∈ (process_job_changes cur stored).store,
      j.id ∈ idsOf cur := by
    intro j hj
    rw [hst3eq, List.mem_filter] at hj
    obtain ⟨hj1, hj2⟩ := hj
    simp only [decide_eq_true_eq] at hj2
    rcases List.mem_append.mp hj1 with h | h
    · have hidst : j.id ∈ idsOf stored := by
        rw [← hids1]
        exact idsOf_mem_of_mem h
      by_contra hnc
      apply hj2
      apply id_mem_removed_iff.mpr
      refine ⟨?_, ?_⟩
      · rw [lookupKey_isSome_iff, mem_keysOf_buildIndex]
        exact hidst
      · rw [lookupKey_eq_none_iff]
        intro hk
        exact hnc ((mem_keysOf_buildIndex cur j.id).mp hk)
    · have h2 := (mem_added_iff.mp h).1
      have h3 : (lookupKey (buildIndex cur) j.id).isSome := by rw [h2]; rfl
      rw [lookupKey_isSome_iff, mem_keysOf_buildIndex] at h3
      exact h3
  have hcur_st3 : ∀ k ∈ idsOf cur,
      k ∈ idsOf (process_job_changes cur stored).store := by
    intro k hk
    by_cases hks : k ∈ idsOf stored
    · have h1 : k ∈ idsOf (process_updates (detect_job_changes cur stored).updated
          stored).store := by
        rw [hids1]
        exact hks
      obtain ⟨j, hj, hjid⟩ := mem_idsOf.mp h1
      have hj3 := hmem_st3 j (List.mem_append_left _ hj) (by rw [hjid]; exact hk)
      rw [← hjid]
      exact idsOf_mem_of_mem hj3
    · have hksome : (lookupKey (buildIndex cur) k).isSome := by
        rw [lookupKey_isSome_iff, mem_keysOf_buildIndex]
        exact hk
      have hknone : lookupKey (buildIndex stored) k = none := by
        rw [lookupKey_eq_none_iff]
        intro h2
        exact hks ((mem_keysOf_buildIndex stored k).mp h2)
      obtain ⟨j, hj, hjid⟩ := mem_idsOf.mp (id_mem_added_iff.mpr ⟨hksome, hknone⟩)
      have hj3 := hmem_st3 j (List.mem_append_right _ hj) (by rw [hjid]; exact hk)
      rw [← hjid]
      exact idsOf_mem_of_mem hj3
  refine ⟨?_, ?_, ?_⟩
  · rw [added_def, List.map_eq_nil_iff, List.filter_eq_nil_iff]
    intro p hp
    have hk : p.1 ∈ idsOf cur := by
      rw [← mem_keysOf_buildIndex]
      exact List.mem_map_of_mem (fun q => q.1) hp
    have h3 := hcur_st3 _ hk
    intro hno
    rw [Option.isNone_iff_eq_none, lookupKey_eq_none_iff] at hno
    exact hno ((mem_keysOf_buildIndex _ _).mpr h3)
  · rw [updated_def, List.filterMap_eq_nil_iff]
    intro p hp
    obtain ⟨hpmem, hpid⟩ := mem_buildIndex hp
    have hp12 : (p.1, p.2) ∈ buildIndex cur := by simpa using hp
    have hlkcur : lookupKey (buildIndex cur) p.1 = some p.2 :=
      mem_lookupKey_nodup (keysOf_buildIndex_nodup cur) hp12
    have hpcur : p.1 ∈ idsOf cur := by
      rw [← hpid]
      exact idsOf_mem_of_mem hpmem
    have hk3 := hcur_st3 _ hpcur
    obtain ⟨sj, hsj⟩ : ∃ sj,
        findJob (process_job_changes cur stored).store p.1 = some sj := by
      apply Option.isSome_iff_exists.mp
      rw [findJob_isSome_iff]
      exact hk3
    suffices hnil : job_field_changes p.2 sj = [] by
      rw [lookupKey_buildIndex_nodup hst3Nodup, hsj]
      simp [hnil]
    rw [job_field_changes_eq_nil_iff]
    intro f hf
    by_cases hks : p.1 ∈ idsOf stored
    · obtain ⟨pj, hpj⟩ : ∃ pj, findJob stored p.1 = some pj := by
        apply Option.isSome_iff_exists.mp
        rw [findJob_isSome_iff]
        exact hks
      have hlkstored : lookupKey (buildIndex stored) p.1 = some pj := by
        rw [lookupKey_buildIndex_nodup hnd]
        exact hpj
      obtain ⟨s1, hs1⟩ : ∃ s1, findJob (process_updates
          (detect_job_changes cur stored).updated stored).store p.1 = some s1 := by
        apply Option.isSome_iff_exists.mp
        rw [findJob_isSome_iff, hids1]
        exact hks
      have hs1m := findJob_eq_some hs1
      have hs13 : s1 ∈ (process_job_changes cur stored).store :=
        hmem_st3 s1 (List.mem_append_left _ hs1m.1) (by rw [hs1m.2]; exact hpcur)
      have h5 := findJob_mem_nodup hst3Nodup hs13 hs1m.2
      rw [hsj] at h5
      have hsjs1 : sj = s1 := Option.some.inj h5
      subst hsjs1
      have hfind1 := process_updates_findJob (detect_job_changes cur stored).updated
        stored (updated_ids_nodup cur stored) p.1
      cases hfu : findUpdated (detect_job_changes cur stored).updated p.1 with
      | none =>
          simp only [hfu] at hfind1
          rw [hs1, hpj] at hfind1
          injection hfind1 with h7
          have hnll : job_field_changes p.2 pj = [] := by
            by_contra hne
            have h8 := id_mem_updated_iff.mpr ⟨p.2, pj, hlkcur, hlkstored, hne⟩
            rw [← findUpdated_isSome_iff, hfu] at h8
            exact absurd h8 (by simp)
          rw [h7]
          exact job_field_changes_eq_nil_iff.mp hnll f hf
      | some u =>
          have hu2 := findUpdated_eq_some hfu
          obtain ⟨cj2, pj2, hc2, hp2, hne2, hueq⟩ := mem_updated_iff.mp hu2.1
          subst hueq
          have hcjid : cj2.id = p.1 := hu2.2
          rw [hcjid] at hc2 hp2
          rw [hlkcur] at hc2
          injection hc2 with hc3
          subst hc3
          rw [hlkstored] at hp2
          injection hp2 with hp3
          subst hp3
          simp only [hfu] at hfind1
          rw [hs1, hpj, Option.map_some'] at hfind1
          injection hfind1 with h7
          rw [h7, get_patchJob]
          by_cases hdud : p.2.get Field.date_updated ≠ pj.get Field.date_updated
          · have hpay : update_payload ⟨p.2, job_field_changes p.2 pj⟩ =
                p.2.fields := by
              unfold update_payload
              rw [if_pos (date_updated_mem_changes_iff.mpr hdud)]
            rw [hpay, lastVal_nodup (hwf p.2 hpmem)]
            cases hlf : lookupKey p.2.fields f with
            | some v =>
                show p.2.get f = v
                unfold Job.get
                rw [hlf]
            | none =>
                show p.2.get f = pj.get f
                rcases hcov p.1 p.2 pj hlkcur hlkstored f hf with hmemf | hnull
                · exact absurd hmemf ((lookupKey_eq_none_iff _ _).mp hlf)
                · rw [hnull]
                  unfold Job.get
                  rw [hlf]
          · have hndu : Field.date_updated ∉
                (job_field_changes p.2 pj).map (fun c => c.1) := by
              rw [date_updated_mem_changes_iff]
              exact hdud
            have hpay : update_payload ⟨p.2, job_field_changes p.2 pj⟩ =
                (job_field_changes p.2 pj).map (fun c => (c.1, c.2.2)) := by
              unfold update_payload
              rw [if_neg hndu]
            have hchg : job_field_changes p.2 pj = diff_fields p.2 pj key_fields := by
              unfold job_field_changes
              rw [if_neg ?hcnd]
              case hcnd =>
                rw [mem_diff_fields_keys]
                rintro ⟨h9, h10⟩
                exact hdud h10
            have hkeysNodup : ((job_field_changes p.2 pj).map (fun c => c.1)).Nodup := by
              rw [hchg]
              exact (by decide : key_fields.Nodup).sublist
                (diff_fields_keys_sublist p.2 pj key_fields)
            have hpayNodup :
                (keysOf (update_payload ⟨p.2, job_field_changes p.2 pj⟩)).Nodup := by
              rw [hpay, keysOf_map_changes]
              exact hkeysNodup
            rw [lastVal_nodup hpayNodup]
            by_cases hfm : f ∈ (job_field_changes p.2 pj).map (fun c => c.1)
            · have htrip : (f, pj.get f, p.2.get f) ∈ job_field_changes p.2 pj := by
                rw [hchg] at hfm ⊢
                obtain ⟨h9, h10⟩ := mem_diff_fields_keys.mp hfm
                exact mem_diff_fields.mpr ⟨h9, h10, rfl, rfl⟩
              have hlk2 := lookupKey_map_changes hkeysNodup htrip
              rw [hpay, hlk2]
            · have hlknone :
                  lookupKey (update_payload ⟨p.2, job_field_changes p.2 pj⟩) f =
                    none := by
                rw [lookupKey_eq_none_iff, hpay, keysOf_map_changes]
                exact hfm
              rw [hlknone]
              show p.2.get f = pj.get f
              rw [hchg] at hfm
              by_contra h9
              exact hfm (mem_diff_fields_keys.mpr ⟨hf, h9⟩)
    · have hknone : lookupKey (buildIndex stored) p.1 = none := by
        rw [lookupKey_eq_none_iff]
        intro h2
        exact hks ((mem_keysOf_buildIndex stored p.1).mp h2)
      obtain ⟨ja, hja, hjaid⟩ := mem_idsOf.mp
        (id_mem_added_iff.mpr ⟨by rw [hlkcur]; rfl, hknone⟩)
      have h2 := (mem_added_iff.mp hja).1
      rw [hjaid, hlkcur] at h2
      injection h2 with h3
      have hj3 := hmem_st3 ja (List.mem_append_right _ hja) (by rw [hjaid]; exact hpcur)
      have h4 := findJob_mem_nodup hst3Nodup hj3 hjaid
      rw [hsj] at h4
      injection h4 with h5
      rw [h5, h3]
  · rw [removed_def, List.map_eq_nil_iff, List.filter_eq_nil_iff]
    intro p hp
    obtain ⟨hpmem, hpid⟩ := mem_buildIndex hp
    have h3 : p.1 ∈ idsOf cur := by
      rw [← hpid]
      exact hid_st3_cur _ hpmem
    intro hno
    rw [Option.isNone_iff_eq_none, lookupKey_eq_none_iff] at hno
    exact hno ((mem_keysOf_buildIndex _ _).mpr h3)

/-- Claim C5 (amended): in the file-backed mode modelled here, when the
stored snapshot has no duplicate ids, the current listings carry no
duplicate field keys, and every primary field of a listing present in both
snapshots is either present in the current listing's dict or null in the
stored one, running the pipeline a second time with the same current
snapshot reports zero added, updated and removed listings and leaves the
store unchanged. -/
theorem process_job_changes_idempotent (cur stored : List Job)
    (hnd : (idsOf stored).Nodup)
    (hwf : ∀ j ∈ cur, (keysOf j.fields).Nodup)
    (hcov : ∀ id cj pj, lookupKey (buildIndex cur) id = some cj →
      lookupKey (buildIndex stored) id = some pj →
      ∀ f ∈ key_fields, f ∈ keysOf cj.fields ∨ pj.get f = Value.vNull) :
    (process_job_changes cur
        (process_job_changes cur stored).store).results.added_count = 0 ∧
    (process_job_changes cur
        (process_job_changes cur stored).store).results.updated_count = 0 ∧
    (process_job_changes cur
        (process_job_changes cur stored).store).results.removed_count = 0 ∧
    (process_job_changes cur (process_job_changes cur stored).store).store =
      (process_job_changes cur stored).store := by
  obtain ⟨hA, hU, hR⟩ := detect_after_process_empty cur stored hnd hwf hcov
  generalize hgen : (process_job_changes cur stored).store = st3 at hA hU hR ⊢
  refine ⟨?_, ?_, ?_, ?_⟩ <;>
    simp [process_job_changes, hA, hU, hR, process_updates]

/-- Counterexample for C5 as stated: store [a with active true and
date_updated 1] and current snapshot [a with only date_updated 2].  The
first run succeeds and takes the full-update path, which never clears the
stale active field, so the second run reports updated_count 1 and changes
the store again. -/
theorem process_job_changes_idempotent_cex :
    (process_job_changes [(⟨"a", [(Field.date_updated, Value.vInt 2)]⟩ : Job)]
        [(⟨"a", [(Field.active, Value.vBool true),
          (Field.date_updated, Value.vInt 1)]⟩ : Job)]).results.success = true ∧
    (process_job_changes [(⟨"a", [(Field.date_updated, Value.vInt 2)]⟩ : Job)]
        (process_job_changes [(⟨"a", [(Field.date_updated, Value.vInt 2)]⟩ : Job)]
          [(⟨"a", [(Field.active, Value.vBool true),
            (Field.date_updated, Value.vInt 1)]⟩ : Job)]).store).results.updated_count =
      1 ∧
    (process_job_changes [(⟨"a", [(Field.date_updated, Value.vInt 2)]⟩ : Job)]
        (process_job_changes [(⟨"a", [(Field.date_updated, Value.vInt 2)]⟩ : Job)]
          [(⟨"a", [(Field.active, Value.vBool true),
            (Field.date_updated, Value.vInt 1)]⟩ : Job)]).store).store ≠
      (process_job_changes [(⟨"a", [(Field.date_updated, Value.vInt 2)]⟩ : Job)]
        [(⟨"a", [(Field.active, Value.vBool true),
          (Field.date_updated, Value.vInt 1)]⟩ : Job)]).store := by
  decide

/-- Witness for C5 (amended): a fresh store and a one-listing snapshot
satisfy the amended hypotheses, and the second run is a no-op. -/
theorem process_job_changes_idempotent_witness :
    (idsOf ([] : List Job)).Nodup ∧
    ((process_job_changes [(⟨"a", [(Field.active, Value.vBool true)]⟩ : Job)]
        (process_job_changes [(⟨"a", [(Field.active, Value.vBool true)]⟩ : Job)]
          []).store).results.added_count = 0 ∧
      (process_job_changes [(⟨"a", [(Field.active, Value.vBool true)]⟩ : Job)]
        (process_job_changes [(⟨"a", [(Field.active, Value.vBool true)]⟩ : Job)]
          []).store).results.updated_count = 0 ∧
      (process_job_changes [(⟨"a", [(Field.active, Value.vBool true)]⟩ : Job)]
        (process_job_changes [(⟨"a", [(Field.active, Value.vBool true)]⟩ : Job)]
          []).store).results.removed_count = 0 ∧
      (process_job_changes [(⟨"a", [(Field.active, Value.vBool true)]⟩ : Job)]
        (process_job_changes [(⟨"a", [(Field.active, Value.vBool true)]⟩ : Job)]
          []).store).store =
        (process_job_changes [(⟨"a", [(Field.active, Value.vBool true)]⟩ : Job)]
          []).store) :=
  ⟨by decide,
    process_job_changes_idempotent
      [(⟨"a", [(Field.active, Value.vBool true)]⟩ : Job)] [] (by decide) (by decide)
      (fun id cj pj h1 h2 => Option.noConfusion h2)⟩

end Chatd
